import Mathlib

/-!
Verification of the building-evacuation simulator.

This file gives a shallow embedding, in Lean 4, of the parts of the
simulator that the specification talks about:

* `building.py` — the `Stairs` occupancy counter;
* `fire_smoke_growth.py` — `FireSource.update`, `SmokeZone.update_zone_model`,
  `ZoneConnection.calculate_flow_rate` and the smoke-redistribution pass of
  `FireModel.update`;
* `evacuation.py` — `EvacuationSimulation._avoid_collisions` and the
  stairwell-transit branch of `_update_agent_position`;
* `people_evacuation/pathfinding.py` — the occupancy grid and the `a_star`
  search.

Python floats are embedded as exact field arithmetic (rationals or reals);
Python ints as `ℤ`/`ℕ`.  Field division by zero is `0` in Lean; every place
where the source can divide by zero is noted at the definition.  Numeric
developments that must be evaluated inside proofs (`decide`) are stated over
`ℚ`; statements that need `Real.sqrt` use `ℝ`.  Most definitions are generic
over a `LinearOrderedField` so that both instantiations share one embedding.
-/

/-! ## building.py — class Stairs -/

/-- State of `Stairs` relevant to occupancy: `capacity` and `current_people`
(Python ints). -/
structure Stairs where
  capacity : ℤ
  current_people : ℤ
  deriving DecidableEq, Repr

/-- `Stairs.is_full`: `current_people >= capacity`. -/
def Stairs.isFull (s : Stairs) : Bool := s.capacity ≤ s.current_people

/-- `Stairs.enter`: increment and return `True` unless full; otherwise leave
the count unchanged and return `False`. -/
def Stairs.enter (s : Stairs) : Stairs × Bool :=
  if ¬ s.isFull then ({ s with current_people := s.current_people + 1 }, true)
  else (s, false)

/-- `Stairs.exit`: decrement and return `True` when the count is positive;
otherwise leave it unchanged and return `False`. -/
def Stairs.exit (s : Stairs) : Stairs × Bool :=
  if 0 < s.current_people then ({ s with current_people := s.current_people - 1 }, true)
  else (s, false)

/-- An admit/exit call on a stairwell. -/
inductive StairsOp where
  | enter
  | leave
  deriving DecidableEq, Repr

/-- Apply one call, keeping only the resulting state. -/
def stairsApply (s : Stairs) : StairsOp → Stairs
  | .enter => s.enter.1
  | .leave => s.exit.1

/-- Run a sequence of admit/exit calls from an empty stairwell of the given
capacity. -/
def stairsRun (cap : ℤ) (ops : List StairsOp) : Stairs :=
  ops.foldl stairsApply { capacity := cap, current_people := 0 }

theorem stairsApply_capacity (s : Stairs) (op : StairsOp) :
    (stairsApply s op).capacity = s.capacity := by
  cases op <;> simp only [stairsApply, Stairs.enter, Stairs.exit, Stairs.isFull] <;>
    split <;> rfl

theorem stairsApply_bounds (s : Stairs) (op : StairsOp)
    (h0 : 0 ≤ s.current_people) (hc : s.current_people ≤ s.capacity) :
    0 ≤ (stairsApply s op).current_people ∧
      (stairsApply s op).current_people ≤ (stairsApply s op).capacity := by
  rw [stairsApply_capacity]
  cases op <;>
    simp only [stairsApply, Stairs.enter, Stairs.exit, Stairs.isFull,
      decide_eq_true_eq] <;> split <;> simp_all <;> omega

theorem stairsRun_bounds (cap : ℤ) (hcap : 0 ≤ cap) (ops : List StairsOp) :
    0 ≤ (stairsRun cap ops).current_people ∧
      (stairsRun cap ops).current_people ≤ (stairsRun cap ops).capacity := by
  suffices h : ∀ (l : List StairsOp) (s : Stairs),
      0 ≤ s.current_people → s.current_people ≤ s.capacity →
      0 ≤ (l.foldl stairsApply s).current_people ∧
        (l.foldl stairsApply s).current_people ≤ (l.foldl stairsApply s).capacity by
    exact h ops { capacity := cap, current_people := 0 } le_rfl hcap
  intro l
  induction l with
  | nil => intro s h0 hc; exact ⟨h0, hc⟩
  | cons op l ih =>
      intro s h0 hc
      obtain ⟨h0', hc'⟩ := stairsApply_bounds s op h0 hc
      exact ih (stairsApply s op) h0' hc'

theorem stairsRun_capacity (cap : ℤ) (ops : List StairsOp) :
    (stairsRun cap ops).capacity = cap := by
  suffices h : ∀ (l : List StairsOp) (s : Stairs), (l.foldl stairsApply s).capacity = s.capacity by
    exact h ops _
  intro l
  induction l with
  | nil => intro s; rfl
  | cons op l ih => intro s; rw [List.foldl_cons, ih, stairsApply_capacity]

/-- Claim C3: starting from occupant count 0, any sequence of enter and exit
calls keeps the stairwell count in `[0, capacity]`; `enter` increments and
returns `true` exactly when the count is strictly below capacity and otherwise
returns `false` leaving the count unchanged; `exit` decrements exactly when
the count is strictly positive and otherwise leaves it unchanged. -/
theorem c3_stairs_occupancy (cap : ℤ) (hcap : 0 ≤ cap) (ops : List StairsOp) :
    (0 ≤ (stairsRun cap ops).current_people ∧ (stairsRun cap ops).current_people ≤ cap) ∧
    (∀ s : Stairs,
      (s.current_people < s.capacity →
        s.enter = ({ capacity := s.capacity, current_people := s.current_people + 1 }, true)) ∧
      (s.capacity ≤ s.current_people → s.enter = (s, false))) ∧
    (∀ s : Stairs,
      (0 < s.current_people →
        s.exit = ({ capacity := s.capacity, current_people := s.current_people - 1 }, true)) ∧
      (s.current_people ≤ 0 → s.exit = (s, false))) := by
  refine ⟨?_, ?_, ?_⟩
  · have h := stairsRun_bounds cap hcap ops
    rw [stairsRun_capacity] at h
    exact h
  · intro s
    constructor
    · intro h
      simp only [Stairs.enter, Stairs.isFull, decide_eq_true_eq, if_pos (not_le.mpr h)]
    · intro h
      simp only [Stairs.enter, Stairs.isFull, decide_eq_true_eq]
      rw [if_neg]
      simp [h]
  · intro s
    constructor
    · intro h
      simp only [Stairs.exit, if_pos h]
    · intro h
      simp only [Stairs.exit, if_neg (not_lt.mpr h)]

/-- Witness for C3 at capacity 2 and a concrete call sequence. -/
theorem c3_stairs_occupancy_witness :
    0 ≤ (2 : ℤ) ∧
      (0 ≤ (stairsRun 2 [.enter, .enter, .enter, .leave]).current_people ∧
        (stairsRun 2 [.enter, .enter, .enter, .leave]).current_people ≤ 2) :=
  ⟨by decide, (c3_stairs_occupancy 2 (by decide) [.enter, .enter, .enter, .leave]).1⟩

/-! ## fire_smoke_growth.py — class FireSource

The update is embedded generically over a linear ordered field; `ℚ` is used
where proofs must evaluate it and `ℝ` elsewhere.  Note that in this embedding
`x / 0 = 0`, so when the base heat-release rate is `0` the ventilation factor
is `min 1 0 = 0` where the source (through numpy division) gets `min 1 ∞ = 1`;
both give heat-release rate `0 * factor = 0`, so the embedded update agrees
with the source on every field of the state.  The plume temperature
(`20 + hrr ** 0.4`) is not modelled: no claim mentions it and it feeds nothing
else. -/

/-- Mutable state of `FireSource` (position and owning room omitted: the room
only enters through its volume and total vent area, which are passed as
parameters). -/
structure FireSourceState (α : Type) where
  start_time : α
  heat_release_rate : α
  smoke_production_rate : α
  active : Bool
  growth_rate : α
  max_hrr : α
  smoke_yield : α
  fire_duration : α
  deriving DecidableEq, Repr

variable {α : Type} [LinearOrderedField α]

/-- `FireSource._calculate_available_oxygen`:
`room_volume * 0.21 + total_vent_area * 0.5`. -/
def availableOxygen (volume vent_area : α) : α := volume * 0.21 + vent_area * 0.5

/-- `FireSource._required_oxygen`: `hrr * 0.13 / 1000`. -/
def requiredOxygen (hrr : α) : α := hrr * 0.13 / 1000

/-- The base (α-t²) heat-release rate: `min(growth_rate * duration ** 2, max_hrr)`. -/
def baseHrr (growth_rate max_hrr t : α) : α := min (growth_rate * t ^ 2) max_hrr

/-- The attenuated heat-release rate produced by `FireSource.update`:
base rate times the ventilation factor
`min(1.0, available_oxygen / required_oxygen(base))`. -/
def fireHrr (growth_rate max_hrr avail t : α) : α :=
  baseHrr growth_rate max_hrr t * min 1 (avail / requiredOxygen (baseHrr growth_rate max_hrr t))

/-- `FireSource.update(current_time)`: returns the updated state and the bool
the method returns.  On the first update at or past `start_time` the source
activates with `fire_duration = 0`; afterwards `fire_duration` is
`current_time - start_time`. -/
def fireSourceUpdate (volume vent_area now : α) (s : FireSourceState α) :
    FireSourceState α × Bool :=
  if s.start_time ≤ now then
    let s1 : FireSourceState α :=
      if ¬ s.active then { s with active := true, fire_duration := 0 }
      else { s with fire_duration := now - s.start_time }
    let hrr := fireHrr s1.growth_rate s1.max_hrr (availableOxygen volume vent_area)
      s1.fire_duration
    ({ s1 with heat_release_rate := hrr,
               smoke_production_rate := hrr * s1.smoke_yield / 1000 }, true)
  else (s, false)

/-- The attenuated rate collapses to a minimum with the ventilation-limited
rate: for `0 ≤ b` and `0 ≤ a`, `b * min 1 (a / (b * 0.13 / 1000)) = min b (a * 1000 / 0.13)`. -/
theorem fireHrr_eq_min (g M avail t : α) (hb : 0 ≤ baseHrr g M t) (ha : 0 ≤ avail) :
    fireHrr g M avail t = min (baseHrr g M t) (avail * 1000 / 0.13) := by
  unfold fireHrr requiredOxygen
  set b := baseHrr g M t with hbdef
  rcases hb.eq_or_lt with h | h
  · rw [← h, zero_mul, eq_comm]
    exact min_eq_left (div_nonneg (mul_nonneg ha (by norm_num)) (by norm_num))
  · rw [mul_min_of_nonneg _ _ h.le, mul_one]
    congr 1
    rw [div_div_eq_mul_div, mul_div_assoc', mul_div_mul_left _ _ h.ne']

theorem baseHrr_nonneg (g M t : α) (hg : 0 ≤ g) (hM : 0 ≤ M) : 0 ≤ baseHrr g M t :=
  le_min (mul_nonneg hg (sq_nonneg t)) hM

/-- Claim C4: a fire source updated at a time at or past its start time gets
heat-release rate `min(growth_rate·t², max_hrr)` attenuated by the ventilation
factor `min(1, available/required(base))`, where `t` is the resulting elapsed
duration; with growth rate 0.19 and cap 3000 the rate is non-decreasing in the
duration, and once `0.19·t² ≥ 3000` (and the room supplies at least the 0.39
oxygen the capped fire needs) the rate equals exactly 3000. -/
theorem c4_fire_hrr (volume vent_area : ℝ)
    (havail : 0 ≤ availableOxygen volume vent_area) :
    (∀ (s : FireSourceState ℝ) (now : ℝ), s.start_time ≤ now →
      (fireSourceUpdate volume vent_area now s).1.heat_release_rate =
        baseHrr s.growth_rate s.max_hrr (fireSourceUpdate volume vent_area now s).1.fire_duration *
          min 1 (availableOxygen volume vent_area /
            requiredOxygen (baseHrr s.growth_rate s.max_hrr
              (fireSourceUpdate volume vent_area now s).1.fire_duration))) ∧
    (∀ t1 t2 : ℝ, 0 ≤ t1 → t1 ≤ t2 →
      fireHrr 0.19 3000 (availableOxygen volume vent_area) t1 ≤
        fireHrr 0.19 3000 (availableOxygen volume vent_area) t2) ∧
    (∀ t : ℝ, 3000 ≤ 0.19 * t ^ 2 → 0.39 ≤ availableOxygen volume vent_area →
      fireHrr 0.19 3000 (availableOxygen volume vent_area) t = 3000) := by
  set a := availableOxygen volume vent_area with hadef
  refine ⟨?_, ?_, ?_⟩
  · intro s now hle
    simp only [fireSourceUpdate, if_pos hle]
    split <;> rfl
  · intro t1 t2 h1 h12
    have hb1 : (0:ℝ) ≤ baseHrr 0.19 3000 t1 := baseHrr_nonneg _ _ _ (by norm_num) (by norm_num)
    have hb2 : (0:ℝ) ≤ baseHrr 0.19 3000 t2 := baseHrr_nonneg _ _ _ (by norm_num) (by norm_num)
    rw [fireHrr_eq_min _ _ _ _ hb1 havail, fireHrr_eq_min _ _ _ _ hb2 havail]
    apply min_le_min _ le_rfl
    apply min_le_min _ le_rfl
    have : t1 ^ 2 ≤ t2 ^ 2 := by nlinarith
    nlinarith
  · intro t hsat ha39
    have hbase : baseHrr (0.19:ℝ) 3000 t = 3000 := min_eq_right hsat
    rw [fireHrr_eq_min _ _ _ _ (by rw [hbase]; norm_num) havail, hbase]
    apply min_eq_left
    rw [le_div_iff (by norm_num : (0:ℝ) < 0.13)]
    nlinarith

/-- Witness for C4: a 5×5×3 room with a 2 m² vent. -/
theorem c4_fire_hrr_witness :
    (0 ≤ availableOxygen (75 : ℝ) 2) ∧
      fireHrr 0.19 3000 (availableOxygen (75 : ℝ) 2) 130 = 3000 := by
  have h1 : (0:ℝ) ≤ availableOxygen 75 2 := by unfold availableOxygen; norm_num
  refine ⟨h1, (c4_fire_hrr 75 2 h1).2.2 130 (by norm_num) ?_⟩
  unfold availableOxygen
  norm_num

/-! ## fire_smoke_growth.py — class SmokeZone

`update_zone_model` is embedded as a pure function of the zone state, the
tick, and the summed heat release and smoke production of the zone's active
fire sources (the source method computes those sums by iterating over
`self.fire_sources`).  The room's floor area and height are parameters; the
source fixes `height = 3.0` for every zone and derives the floor area from
the boundary polygon at construction time. -/

/-- Mutable state of `SmokeZone` (the geometric fields are passed as
parameters; pressure is never updated by the source). -/
structure ZoneState (α : Type) where
  smoke_height : α
  hot_layer_temp : α
  cold_layer_temp : α
  interface_height : α
  deriving DecidableEq, Repr

/-- `SmokeZone.__init__` state: no smoke, both layers at ambient 20 °C,
interface at the 3.0 m ceiling. -/
def initZone : ZoneState α :=
  { smoke_height := 0, hot_layer_temp := 20, cold_layer_temp := 20, interface_height := 3 }

/-- `SmokeZone._calculate_air_properties`: density `1.2 * (293 / T)` and
specific heat `1.005 + 0.00004 * (T - 293)` at `T = temperature + 273.15` K. -/
def calcAirProperties (temperature : α) : α × α :=
  (1.2 * (293 / (temperature + 273.15)), 1.005 + 0.00004 * (temperature + 273.15 - 293))

/-- `SmokeZone.update_zone_model(time_step, current_time)` after the fire
sources have been summed into `total_heat` (kW) and `total_smoke` (kg/s). -/
def updateZoneModel (floor_area height total_heat total_smoke dt : α)
    (z : ZoneState α) : ZoneState α :=
  if 0 < total_heat then
    let delta_height := min (total_smoke * dt / 0.5 / floor_area) 0.1
    let hot_props := calcAirProperties z.hot_layer_temp
    let cold_props := calcAirProperties z.cold_layer_temp
    let smoke := min height (max 0.05 (z.smoke_height + delta_height))
    if 0 < smoke then
      let mass_hot := floor_area * smoke * hot_props.1
      let mass_cold := floor_area * (height - smoke) * cold_props.1
      let qtransfer := 0.1 * floor_area * (z.hot_layer_temp - z.cold_layer_temp) * dt
      let temps :=
        if 0 < mass_hot ∧ 0 < mass_cold then
          let dT_fire := min 100 (total_heat * dt / (hot_props.2 * mass_hot))
          let dT_hot := max (-100) (-qtransfer / (hot_props.2 * mass_hot))
          let dT_cold := min 100 (qtransfer / (cold_props.2 * mass_cold))
          (min 800 (max 20 (z.hot_layer_temp + dT_fire + dT_hot)),
           min 50 (max 20 (z.cold_layer_temp + dT_cold)))
        else (z.hot_layer_temp, z.cold_layer_temp)
      { smoke_height := smoke, hot_layer_temp := temps.1, cold_layer_temp := temps.2,
        interface_height := height - smoke }
    else { z with smoke_height := smoke }
  else z

/-- One tick of `FireModel.update(time_step)` for a system of one zone with a
single fire source and no connections (for such a system the two connector
passes do nothing): advance the clock, update the source at the new time, sum
its output if the update returned `True`, and run the zone model. -/
structure SingleZoneSim (α : Type) where
  time : α
  source : FireSourceState α
  zone : ZoneState α
  deriving DecidableEq, Repr

def singleZoneTick (floor_area height volume vent_area dt : α)
    (st : SingleZoneSim α) : SingleZoneSim α :=
  let t := st.time + dt
  let upd := fireSourceUpdate volume vent_area t st.source
  let heat := if upd.2 then upd.1.heat_release_rate else 0
  let smoke := if upd.2 then upd.1.smoke_production_rate else 0
  { time := t, source := upd.1,
    zone := updateZoneModel floor_area height heat smoke dt st.zone }

/-- `FireSource.__init__` with start time 0: inactive, growth rate 0.19,
max HRR 3000, smoke yield 0.2. -/
def initSource : FireSourceState α :=
  { start_time := 0, heat_release_rate := 0, smoke_production_rate := 0,
    active := false, growth_rate := 0.19, max_hrr := 3000, smoke_yield := 0.2,
    fire_duration := 0 }

/-! ## fire_smoke_growth.py — smoke redistribution (`FireModel.update`, pass 3)

After all connector flows are known, each connector moves
`flow_rate * time_step` of smoke volume between its two zones: the giving
zone's smoke height drops by `volume / floor_area` (floored at 0), the
receiving zone's rises by `volume / floor_area` (capped at its height), and
both interface heights are recomputed as `height - smoke_height`. -/

/-- Effect of the redistribution pass on the zone smoke flows out of. -/
def redistLose (floor_area height vol : α) (z : ZoneState α) : ZoneState α :=
  let s := max 0 (z.smoke_height - vol / floor_area)
  { z with smoke_height := s, interface_height := height - s }

/-- Effect of the redistribution pass on the zone smoke flows into. -/
def redistGain (floor_area height vol : α) (z : ZoneState α) : ZoneState α :=
  let s := min height (z.smoke_height + vol / floor_area)
  { z with smoke_height := s, interface_height := height - s }

/-- Every mutation the simulator applies to one zone's state during a tick:
its own `update_zone_model` (with the summed fire outputs and the tick length
left arbitrary, a superset of what fire sources can produce), or a
redistribution adjustment by a connector moving a nonnegative smoke volume.
The source fixes every zone's height at 3.0 m. -/
inductive ZoneStep (floor_area : α) : ZoneState α → ZoneState α → Prop
  | model (heat smoke dt : α) (z : ZoneState α) :
      ZoneStep floor_area z (updateZoneModel floor_area 3 heat smoke dt z)
  | lose (vol : α) (hv : 0 ≤ vol) (z : ZoneState α) :
      ZoneStep floor_area z (redistLose floor_area 3 vol z)
  | gain (vol : α) (hv : 0 ≤ vol) (z : ZoneState α) :
      ZoneStep floor_area z (redistGain floor_area 3 vol z)

/-- States of one zone reachable from the freshly constructed zone under any
sequence of ticks. -/
def ZoneReach (floor_area : α) (z : ZoneState α) : Prop :=
  Relation.ReflTransGen (ZoneStep floor_area) initZone z

/-- The smoke-height/interface invariant maintained by every zone mutation. -/
def ZoneInv (z : ZoneState α) : Prop :=
  0 ≤ z.smoke_height ∧ z.smoke_height ≤ 3 ∧ z.interface_height = 3 - z.smoke_height

theorem zoneInv_init : ZoneInv (initZone (α := α)) := by
  refine ⟨le_rfl, by norm_num [initZone], by norm_num [initZone]⟩

theorem zoneInv_updateZoneModel (floor_area heat smoke dt : α) (z : ZoneState α)
    (hz : ZoneInv z) : ZoneInv (updateZoneModel floor_area 3 heat smoke dt z) := by
  obtain ⟨h0, h3, hi⟩ := hz
  unfold updateZoneModel
  split
  · have hlow : (0.05 : α) ≤ min 3 (max 0.05 (z.smoke_height +
        min (smoke * dt / 0.5 / floor_area) 0.1)) :=
      le_min (by norm_num) (le_max_left _ _)
    rw [if_pos (lt_of_lt_of_le (by norm_num) hlow)]
    refine ⟨le_trans (by norm_num) hlow, min_le_left _ _, rfl⟩
  · exact ⟨h0, h3, hi⟩

theorem zoneInv_redistLose (floor_area vol : α) (hA : 0 < floor_area) (hv : 0 ≤ vol)
    (z : ZoneState α) (hz : ZoneInv z) : ZoneInv (redistLose floor_area 3 vol z) := by
  obtain ⟨h0, h3, hi⟩ := hz
  have hd : 0 ≤ vol / floor_area := div_nonneg hv hA.le
  exact ⟨le_max_left _ _, max_le (by norm_num) (by linarith), rfl⟩

theorem zoneInv_redistGain (floor_area vol : α) (hA : 0 < floor_area) (hv : 0 ≤ vol)
    (z : ZoneState α) (hz : ZoneInv z) : ZoneInv (redistGain floor_area 3 vol z) := by
  obtain ⟨h0, h3, hi⟩ := hz
  have hd : 0 ≤ vol / floor_area := div_nonneg hv hA.le
  exact ⟨le_min (by norm_num) (by linarith), min_le_left _ _, rfl⟩

/-- Claim C2 (amended part): for every zone state reachable under any sequence
of ticks, the interface height stays within `[0, room height]` after every
zone update and every connector redistribution. -/
theorem c2_interface_height_invariant (floor_area : α) (hA : 0 < floor_area)
    (z : ZoneState α) (hz : ZoneReach floor_area z) :
    0 ≤ z.interface_height ∧ z.interface_height ≤ 3 := by
  suffices h : ZoneInv z by
    obtain ⟨h0, h3, hi⟩ := h
    rw [hi]
    constructor <;> linarith
  induction hz with
  | refl => exact zoneInv_init
  | tail _ hstep ih =>
      cases hstep with
      | model heat smoke dt z => exact zoneInv_updateZoneModel _ _ _ _ _ ih
      | lose vol hv z => exact zoneInv_redistLose _ _ hA hv _ ih
      | gain vol hv z => exact zoneInv_redistGain _ _ hA hv _ ih

/-- Witness for the amended C2 invariant at a concrete reachable state. -/
theorem c2_interface_height_invariant_witness :
    (0 < (10:ℚ)) ∧ ZoneReach (10:ℚ) (redistGain 10 3 2 initZone) ∧
      (0 ≤ (redistGain (10:ℚ) 3 2 initZone).interface_height ∧
        (redistGain (10:ℚ) 3 2 initZone).interface_height ≤ 3) := by
  have hr : ZoneReach (10:ℚ) (redistGain 10 3 2 initZone) :=
    Relation.ReflTransGen.single (ZoneStep.gain 2 (by norm_num) _)
  exact ⟨by norm_num, hr, c2_interface_height_invariant 10 (by norm_num) _ hr⟩

/-- The simulator state after the first tick (length 1 s) of the
single-zone counterexample scenario: floor area 10⁶ m², one fire source
igniting at time 0.  The source activates with duration 0 and the zone is
untouched. -/
theorem zoneCexTick1 : singleZoneTick (1000000:ℚ) 3 3000000 0 1
    ⟨0, initSource, initZone⟩ =
    ⟨1, ⟨0, 0, 0, true, 19/100, 3000, 1/5, 0⟩, initZone⟩ := by
  norm_num [singleZoneTick, fireSourceUpdate, updateZoneModel, fireHrr, baseHrr,
    availableOxygen, requiredOxygen, calcAirProperties, initSource, initZone,
    min_def, max_def]

/-- After the second tick (length 4000 s): the fire is at full 3000 kW, and
the fire energy raises the hot layer by the per-tick cap of 100 °C so the
zone sits at hot 120 °C / cold 20 °C with a 0.05 m smoke layer. -/
theorem zoneCexTick2 : singleZoneTick (1000000:ℚ) 3 3000000 0 4000
    ⟨1, ⟨0, 0, 0, true, 19/100, 3000, 1/5, 0⟩, initZone⟩ =
    ⟨4001, ⟨0, 3000, 3/5, true, 19/100, 3000, 1/5, 4001⟩,
      ⟨1/20, 120, 20, 59/20⟩⟩ := by
  norm_num [singleZoneTick, fireSourceUpdate, updateZoneModel, fireHrr, baseHrr,
    availableOxygen, requiredOxygen, calcAirProperties, initZone,
    min_def, max_def]

/-- Counterexample to C2 as stated: after a third tick (length 1 s) the
conductive-transfer clamp pulls the hot layer down by 100 °C (to ≈ 20.07 °C)
while the cold layer rises to ≈ 22.81 °C, so a state reachable from the
initial state by three ticks has cold layer temperature strictly above hot
layer temperature after its zone update. -/
theorem c2_cold_above_hot_counterexample :
    (singleZoneTick (1000000:ℚ) 3 3000000 0 1
      (singleZoneTick 1000000 3 3000000 0 4000
        (singleZoneTick 1000000 3 3000000 0 1
          ⟨0, initSource, initZone⟩))).zone.hot_layer_temp <
    (singleZoneTick (1000000:ℚ) 3 3000000 0 1
      (singleZoneTick 1000000 3 3000000 0 4000
        (singleZoneTick 1000000 3 3000000 0 1
          ⟨0, initSource, initZone⟩))).zone.cold_layer_temp := by
  rw [zoneCexTick1, zoneCexTick2]
  norm_num [singleZoneTick, fireSourceUpdate, updateZoneModel, fireHrr, baseHrr,
    availableOxygen, requiredOxygen, calcAirProperties, min_def, max_def]

/-- Claim C6: contrary to the claim, `update_zone_model` signals no
model-consistency error.  The source contains no raise at all — it clamps the
two temperatures into `[20, 800]` and `[20, 50]` and continues — so the
embedding is a total function on states.  Applied at a state the simulator
itself produces (hot 120 °C, cold 20 °C, 0.05 m of smoke; reached by the tick
sequence of the C2 development) with a 1 s tick and a 3000 kW fire, it
returns normally a state whose hot-layer temperature is BELOW its cold-layer
temperature: exactly the situation the claim says must raise a distinct
error. -/
theorem c6_zone_update_silent_inversion :
    (updateZoneModel (1000000:ℚ) 3 3000 (3/5) 1 ⟨1/20, 120, 20, 59/20⟩).hot_layer_temp <
    (updateZoneModel (1000000:ℚ) 3 3000 (3/5) 1 ⟨1/20, 120, 20, 59/20⟩).cold_layer_temp := by
  norm_num [updateZoneModel, calcAirProperties, min_def, max_def]

/-! ## fire_smoke_growth.py — class ZoneConnection -/

/-- One `update_zone_model` call keeps the cold layer in `[20, 50]` and the
hot layer in `[20, 800]` (the temperatures are either untouched or clamped
into those ranges). -/
theorem updateZoneModel_temps (fa he sm d : α) (w : ZoneState α)
    (hw : (20 ≤ w.cold_layer_temp ∧ w.cold_layer_temp ≤ 50) ∧
      (20 ≤ w.hot_layer_temp ∧ w.hot_layer_temp ≤ 800)) :
    (20 ≤ (updateZoneModel fa 3 he sm d w).cold_layer_temp ∧
      (updateZoneModel fa 3 he sm d w).cold_layer_temp ≤ 50) ∧
      (20 ≤ (updateZoneModel fa 3 he sm d w).hot_layer_temp ∧
        (updateZoneModel fa 3 he sm d w).hot_layer_temp ≤ 800) := by
  unfold updateZoneModel
  simp only
  split_ifs with h1 h2 h3
  · constructor
    · exact ⟨le_min (by norm_num) (le_max_left _ _), min_le_left _ _⟩
    · exact ⟨le_min (by norm_num) (le_max_left _ _), min_le_left _ _⟩
  · exact hw
  · exact hw
  · exact hw

/-- Temperatures stay in the clamp ranges: for every reachable zone state the
cold layer is in `[20, 50]` and the hot layer is in `[20, 800]`.  This
justifies the temperature hypotheses of the C5 statement. -/
theorem zone_temp_bounds (floor_area : α) (z : ZoneState α)
    (hz : ZoneReach floor_area z) :
    (20 ≤ z.cold_layer_temp ∧ z.cold_layer_temp ≤ 50) ∧
      (20 ≤ z.hot_layer_temp ∧ z.hot_layer_temp ≤ 800) := by
  induction hz with
  | refl => norm_num [initZone]
  | tail _ hstep ih =>
      cases hstep with
      | model heat smoke dt z => exact updateZoneModel_temps _ _ _ _ _ ih
      | lose vol hv z => exact ih
      | gain vol hv z => exact ih

/-- `ZoneConnection.calculate_flow_rate(time_step)` (the tick length is unused
by the source body).  Parameters: the connector geometry (`height`, `width`),
the two zones' room heights, and the two zone states.  The returned value is
the recomputed `flow_rate` (signed, positive meaning zone1 → zone2). -/
noncomputable def calculateFlowRate (geom_h geom_w h1 h2 : ℝ)
    (z1 z2 : ZoneState ℝ) : ℝ :=
  if 0.1 < h1 - z1.interface_height ∧ 50 < z1.hot_layer_temp - z1.cold_layer_temp then
    let rho1 := 1.2 * 293 / (z1.hot_layer_temp + 273.15)
    let rho2 := 1.2 * 293 / (z2.cold_layer_temp + 273.15)
    let dp := 9.81 * (rho2 - rho1) * (h1 - z1.interface_height)
    if 0.1 < |dp| then
      let eff_h := min geom_h (h1 - z1.interface_height)
      let flow0 := 0.6 * (geom_w * eff_h) * Real.sqrt (2 * |dp| / 1.2)
      let flow1 := if dp < 0 then -flow0 else flow0
      let source_smoke := if 0 < flow1 then h1 - z1.interface_height else h2 - z2.interface_height
      let target_smoke := if 0 < flow1 then h2 - z2.interface_height else h1 - z1.interface_height
      if source_smoke ≤ target_smoke then 0 else flow1
    else 0
  else 0

/-- Claim C5: under the temperature ranges every reachable zone state
satisfies (`zone_temp_bounds`) and with the positive connector geometry the
source uses, a nonzero recomputed flow always leaves zone 1, and then the
source zone (zone 1) exceeds both activation thresholds (0.1 m of smoke
layer, 50 °C of hot/cold contrast) and the receiving zone's smoke layer is
strictly thinner than the source zone's. -/
theorem c5_flow_rate_conditions (geom_h geom_w h1 h2 : ℝ)
    (hgh : 0 < geom_h) (hgw : 0 < geom_w) (z1 z2 : ZoneState ℝ)
    (hc1 : 20 ≤ z1.cold_layer_temp) (hc2 : 20 ≤ z2.cold_layer_temp)
    (hc2' : z2.cold_layer_temp ≤ 50) :
    calculateFlowRate geom_h geom_w h1 h2 z1 z2 ≠ 0 →
      0 < calculateFlowRate geom_h geom_w h1 h2 z1 z2 ∧
      0.1 < h1 - z1.interface_height ∧
      50 < z1.hot_layer_temp - z1.cold_layer_temp ∧
      h2 - z2.interface_height < h1 - z1.interface_height := by
  intro hne
  unfold calculateFlowRate at *
  by_cases hgate : 0.1 < h1 - z1.interface_height ∧
      50 < z1.hot_layer_temp - z1.cold_layer_temp
  swap
  · rw [if_neg hgate] at hne; exact absurd rfl hne
  rw [if_pos hgate] at hne ⊢
  simp only at hne ⊢
  set thick1 := h1 - z1.interface_height with hth1
  have hT1 : (343.15:ℝ) < z1.hot_layer_temp + 273.15 := by
    have := hgate.2; linarith
  have hT2a : (293.15:ℝ) ≤ z2.cold_layer_temp + 273.15 := by linarith
  have hT2b : z2.cold_layer_temp + 273.15 ≤ 323.15 := by linarith
  have hrho : 1.2 * 293 / (z1.hot_layer_temp + 273.15) <
      1.2 * 293 / (z2.cold_layer_temp + 273.15) := by
    apply div_lt_div_of_pos_left (by norm_num) (by linarith)
    linarith
  set rho1 := 1.2 * 293 / (z1.hot_layer_temp + 273.15) with hrho1
  set rho2 := 1.2 * 293 / (z2.cold_layer_temp + 273.15) with hrho2
  have hdp : 0 < 9.81 * (rho2 - rho1) * thick1 := by
    apply mul_pos (by nlinarith) (by linarith [hgate.1])
  set dp := 9.81 * (rho2 - rho1) * thick1 with hdp2
  by_cases habs : 0.1 < |dp|
  swap
  · rw [if_neg habs] at hne; exact absurd rfl hne
  rw [if_pos habs] at hne ⊢
  have hflow0 : 0 < 0.6 * (geom_w * min geom_h thick1) * Real.sqrt (2 * |dp| / 1.2) := by
    apply mul_pos
    · apply mul_pos (by norm_num)
      exact mul_pos hgw (lt_min hgh (by linarith [hgate.1]))
    · apply Real.sqrt_pos.mpr
      have : (0:ℝ) < |dp| := lt_trans (by norm_num) habs
      positivity
  rw [if_neg (not_lt.mpr hdp.le)] at hne ⊢
  simp only [if_pos hflow0] at hne ⊢
  by_cases hsup : thick1 ≤ h2 - z2.interface_height
  · rw [if_pos hsup] at hne
    exact absurd rfl hne
  · rw [if_neg hsup] at hne ⊢
    exact ⟨hflow0, hgate.1, hgate.2, not_le.mp hsup⟩

/-- Witness for C5 with the source's door geometry and a pair of reachable
zone temperatures (flow is zero there because zone 1 is below both
thresholds, so the implication holds vacuously through the theorem). -/
theorem c5_flow_rate_conditions_witness :
    (0 < (2:ℝ)) ∧
      (calculateFlowRate (2:ℝ) 2 3 3 initZone initZone ≠ 0 →
        0 < calculateFlowRate (2:ℝ) 2 3 3 initZone initZone ∧
        0.1 < 3 - (initZone (α := ℝ)).interface_height ∧
        50 < (initZone (α := ℝ)).hot_layer_temp - (initZone (α := ℝ)).cold_layer_temp ∧
        3 - (initZone (α := ℝ)).interface_height < 3 - (initZone (α := ℝ)).interface_height) := by
  refine ⟨by norm_num, ?_⟩
  exact c5_flow_rate_conditions 2 2 3 3 (by norm_num) (by norm_num) initZone initZone
    (by norm_num [initZone]) (by norm_num [initZone]) (by norm_num [initZone])

/-! ## evacuation.py — `EvacuationSimulation._avoid_collisions`

Embedded over `ℝ` with `np.linalg.norm` as the Euclidean norm.  The Python
identity test `other is not agent` is embedded as inequality of an `aid`
field that is unique per agent object. -/

/-- Euclidean norm of a 2-vector (`np.linalg.norm`). -/
noncomputable def norm2 (v : ℝ × ℝ) : ℝ := Real.sqrt (v.1 ^ 2 + v.2 ^ 2)

/-- The fields of `Agent` read by `_avoid_collisions`. -/
structure EvAgent where
  position : ℝ × ℝ
  floor : ℤ
  radius : ℝ
  desired_speed : ℝ
  aid : ℕ

open Classical in
/-- `floor_agents`: every other agent on the same floor. -/
noncomputable def sameFloorOthers (agents : List EvAgent) (a : EvAgent) : List EvAgent :=
  agents.filter fun o => o.floor = a.floor ∧ o.aid ≠ a.aid

open Classical in
/-- The masked agents: same-floor others at distance `< radius * 2`. -/
noncomputable def nearAgents (agents : List EvAgent) (a : EvAgent) : List EvAgent :=
  (sameFloorOthers agents a).filter fun o =>
    norm2 (o.position.1 - a.position.1, o.position.2 - a.position.2) < a.radius * 2

/-- Sum of `diff / (distance + 1e-6)` over the masked agents. -/
noncomputable def repulsionSum (agents : List EvAgent) (a : EvAgent) : ℝ × ℝ :=
  let reps := (nearAgents agents a).map fun o =>
    let d := (o.position.1 - a.position.1, o.position.2 - a.position.2)
    let dist := norm2 d
    (d.1 / (dist + 1e-6), d.2 / (dist + 1e-6))
  ((reps.map Prod.fst).sum, (reps.map Prod.snd).sum)

/-- The final speed limit: rescale to magnitude `s` when the magnitude
exceeds `s`. -/
noncomputable def clampToSpeed (s : ℝ) (v : ℝ × ℝ) : ℝ × ℝ :=
  if s < norm2 v then (v.1 / norm2 v * s, v.2 / norm2 v * s) else v

open Classical in
/-- `EvacuationSimulation._avoid_collisions(agent, desired_velocity)`. -/
noncomputable def avoidCollisions (agents : List EvAgent) (a : EvAgent) (desired : ℝ × ℝ) :
    ℝ × ℝ :=
  if sameFloorOthers agents a = [] then desired
  else if nearAgents agents a = [] then desired
  else
    clampToSpeed a.desired_speed
      (desired.1 - (repulsionSum agents a).1 * 0.5, desired.2 - (repulsionSum agents a).2 * 0.5)

theorem norm2_axis (x : ℝ) : norm2 (x, 0) = |x| := by
  simp [norm2, Real.sqrt_sq_eq_abs]

theorem norm2_scale (c : ℝ) (v : ℝ × ℝ) : norm2 (v.1 * c, v.2 * c) = |c| * norm2 v := by
  simp only [norm2]
  rw [show (v.1 * c) ^ 2 + (v.2 * c) ^ 2 = c ^ 2 * (v.1 ^ 2 + v.2 ^ 2) by ring,
    Real.sqrt_mul (sq_nonneg c), Real.sqrt_sq_eq_abs]

/-- The clamp never returns a vector longer than the (nonnegative) speed
limit. -/
theorem norm2_clampToSpeed (s : ℝ) (hs : 0 ≤ s) (v : ℝ × ℝ) :
    norm2 (clampToSpeed s v) ≤ s := by
  unfold clampToSpeed
  split_ifs with h
  · have hv : 0 < norm2 v := lt_of_le_of_lt hs h
    have heq : (v.1 / norm2 v * s, v.2 / norm2 v * s) =
        ((v.1 * (s / norm2 v)), (v.2 * (s / norm2 v))) := by
      rw [Prod.mk.injEq]
      constructor <;> ring
    rw [heq, norm2_scale]
    rw [abs_of_nonneg (div_nonneg hs hv.le), div_mul_cancel₀ _ hv.ne']
  · exact le_of_not_lt h

/-- First scenario agent: at the origin, radius 0.5 m, desired speed 2 m/s. -/
def agentA : EvAgent :=
  { position := (0, 0), floor := 1, radius := 0.5, desired_speed := 2, aid := 0 }

/-- Second scenario agent: 0.2 m away along the x axis. -/
def agentB : EvAgent :=
  { position := (0.2, 0), floor := 1, radius := 0.5, desired_speed := 2, aid := 1 }

theorem norm2_fifth : norm2 ((1:ℝ)/5, 0) = 1/5 := by
  rw [norm2_axis, abs_of_nonneg (by norm_num : (0:ℝ) ≤ 1/5)]

theorem norm2_neg_fifth : norm2 (-((1:ℝ)/5), 0) = 1/5 := by
  rw [norm2_axis, abs_neg, abs_of_nonneg (by norm_num : (0:ℝ) ≤ 1/5)]

theorem sfoA : sameFloorOthers [agentA, agentB] agentA = [agentB] := by
  simp only [sameFloorOthers, List.filter_cons, List.filter_nil, decide_eq_true_eq]
  norm_num [agentA, agentB]

theorem sfoB : sameFloorOthers [agentA, agentB] agentB = [agentA] := by
  simp only [sameFloorOthers, List.filter_cons, List.filter_nil, decide_eq_true_eq]
  norm_num [agentA, agentB]

theorem nearA : nearAgents [agentA, agentB] agentA = [agentB] := by
  rw [nearAgents, sfoA]
  simp only [List.filter_cons, List.filter_nil, decide_eq_true_eq]
  norm_num [agentA, agentB, norm2_fifth]

theorem nearB : nearAgents [agentA, agentB] agentB = [agentA] := by
  rw [nearAgents, sfoB]
  simp only [List.filter_cons, List.filter_nil, decide_eq_true_eq]
  norm_num [agentA, agentB, norm2_neg_fifth]

theorem repA : repulsionSum [agentA, agentB] agentA = (200000/200001, 0) := by
  rw [repulsionSum, nearA]
  simp only [List.map_cons, List.map_nil, List.sum_cons, List.sum_nil]
  norm_num [agentA, agentB, norm2_fifth]

theorem repB : repulsionSum [agentA, agentB] agentB = (-(200000/200001), 0) := by
  rw [repulsionSum, nearB]
  simp only [List.map_cons, List.map_nil, List.sum_cons, List.sum_nil]
  norm_num [agentA, agentB, norm2_neg_fifth]

theorem scenV1 : avoidCollisions [agentA, agentB] agentA (2, 0) = (300002/200001, 0) := by
  rw [avoidCollisions, if_neg (by rw [sfoA]; exact List.cons_ne_nil _ _),
    if_neg (by rw [nearA]; exact List.cons_ne_nil _ _), repA]
  show clampToSpeed agentA.desired_speed (2 - 200000 / 200001 * 0.5, 0 - 0 * 0.5) =
    (300002/200001, 0)
  have h1 : ((2:ℝ) - 200000 / 200001 * 0.5, (0:ℝ) - 0 * 0.5) =
      ((300002:ℝ)/200001, (0:ℝ)) := by
    rw [Prod.mk.injEq]
    norm_num
  rw [h1, clampToSpeed, if_neg]
  rw [norm2_axis, abs_of_nonneg (by norm_num : (0:ℝ) ≤ 300002/200001)]
  show ¬ (agentA.desired_speed < 300002/200001)
  norm_num [agentA]

theorem scenV2 : avoidCollisions [agentA, agentB] agentB (2, 0) = (2, 0) := by
  rw [avoidCollisions, if_neg (by rw [sfoB]; exact List.cons_ne_nil _ _),
    if_neg (by rw [nearB]; exact List.cons_ne_nil _ _), repB]
  show clampToSpeed agentB.desired_speed (2 - -(200000 / 200001) * 0.5, 0 - 0 * 0.5) =
    ((2:ℝ), (0:ℝ))
  have h1 : ((2:ℝ) - -(200000 / 200001) * 0.5, (0:ℝ) - 0 * 0.5) =
      ((500002:ℝ)/200001, (0:ℝ)) := by
    rw [Prod.mk.injEq]
    norm_num
  have hn : norm2 ((500002:ℝ)/200001, 0) = 500002/200001 := by
    rw [norm2_axis, abs_of_nonneg (by norm_num : (0:ℝ) ≤ 500002/200001)]
  rw [h1, clampToSpeed, if_pos]
  · rw [hn, Prod.mk.injEq]
    constructor
    · show ((500002:ℝ)/200001) / (500002/200001) * agentB.desired_speed = 2
      rw [div_self (by norm_num : ((500002:ℝ)/200001) ≠ 0)]
      norm_num [agentB]
    · norm_num
  · rw [hn]
    show agentB.desired_speed < 500002/200001
    norm_num [agentB]

/-- Claim C7: the collision-avoidance step returns the desired velocity
unchanged when no other same-floor agent is within `2 × radius`; otherwise it
returns exactly the desired velocity minus 0.5 times the sum over the nearby
agents of `diff / (distance + 1e-6)` (the unit vector toward each neighbor,
inverse-distance scaled with the 1e-6 epsilon), clamped to the agent's
desired speed.  In the two-agent scenario (0.2 m apart, radius 0.5, common
desired velocity (2, 0)) the two results differ and neither exceeds speed 2. -/
theorem c7_avoid_collisions :
    (∀ (agents : List EvAgent) (a : EvAgent) (desired : ℝ × ℝ),
      nearAgents agents a = [] → avoidCollisions agents a desired = desired) ∧
    (∀ (agents : List EvAgent) (a : EvAgent) (desired : ℝ × ℝ),
      nearAgents agents a ≠ [] →
        avoidCollisions agents a desired =
          clampToSpeed a.desired_speed
            (desired.1 - (repulsionSum agents a).1 * 0.5,
             desired.2 - (repulsionSum agents a).2 * 0.5) ∧
        (0 ≤ a.desired_speed → norm2 (avoidCollisions agents a desired) ≤ a.desired_speed)) ∧
    (avoidCollisions [agentA, agentB] agentA (2, 0) ≠
        avoidCollisions [agentA, agentB] agentB (2, 0) ∧
      norm2 (avoidCollisions [agentA, agentB] agentA (2, 0)) ≤ 2 ∧
      norm2 (avoidCollisions [agentA, agentB] agentB (2, 0)) ≤ 2) := by
  have hmain : ∀ (agents : List EvAgent) (a : EvAgent) (desired : ℝ × ℝ),
      nearAgents agents a ≠ [] →
        avoidCollisions agents a desired =
          clampToSpeed a.desired_speed
            (desired.1 - (repulsionSum agents a).1 * 0.5,
             desired.2 - (repulsionSum agents a).2 * 0.5) := by
    intro agents a desired hne
    have hsfo : sameFloorOthers agents a ≠ [] := by
      intro h
      exact hne (by rw [nearAgents, h, List.filter_nil])
    rw [avoidCollisions, if_neg hsfo, if_neg hne]
  refine ⟨?_, ?_, ?_, ?_, ?_⟩
  · intro agents a desired hnil
    rw [avoidCollisions]
    by_cases hsfo : sameFloorOthers agents a = []
    · rw [if_pos hsfo]
    · rw [if_neg hsfo, if_pos hnil]
  · intro agents a desired hne
    refine ⟨hmain agents a desired hne, fun hs => ?_⟩
    rw [hmain agents a desired hne]
    exact norm2_clampToSpeed _ hs _
  · rw [scenV1, scenV2]
    intro h
    rw [Prod.mk.injEq] at h
    have := h.1
    norm_num at this
  · rw [scenV1, norm2_axis, abs_of_nonneg (by norm_num : (0:ℝ) ≤ 300002/200001)]
    norm_num
  · rw [scenV2, norm2_axis, abs_of_nonneg (by norm_num : (0:ℝ) ≤ 2)]

/-- Witness for C7 (which has no top-level hypotheses): its no-neighbor case
applied to a single agent alone on its floor. -/
theorem c7_avoid_collisions_witness :
    nearAgents [agentA] agentA = [] ∧ avoidCollisions [agentA] agentA (2, 0) = (2, 0) := by
  have hnil : nearAgents [agentA] agentA = [] := by
    rw [nearAgents, sameFloorOthers]
    simp [agentA]
  exact ⟨hnil, c7_avoid_collisions.1 [agentA] agentA (2, 0) hnil⟩

/-! ## evacuation.py — `_update_agent_position`, stairwell-transit branch

The branch taken when `agent.in_stairs` holds (lines 139-166): decrement the
progress countdown by the tick; at or below zero, call `exit` on the agent's
stairwell, look up the next floor in the travel direction, and if there is
one move the agent to it, clear the transit flag, reset route and target
(the source then immediately calls `find_path` from this reset state), and
place the agent at the stairwell's exit point for the new floor.  The
positional interpolation and the `current_stairs is None` guard are display
resp. dead-reference concerns; the stairwell object is passed here as its
geometry (`StairsGeom`) plus its occupancy counter (`Stairs`). -/

inductive MoveDir where
  | up
  | down
  deriving DecidableEq, Repr

inductive TargetKind where
  | stairsK
  | exitK
  deriving DecidableEq, Repr

/-- The fields of `Agent` read or written by the transit branch. -/
structure TransitAgent where
  position : ℝ × ℝ
  floor : ℤ
  in_stairs : Bool
  stairs_progress : ℝ
  path : List (ℝ × ℝ)
  target : Option (ℝ × ℝ)
  target_kind : Option TargetKind
  move_direction : MoveDir

/-- Static stairwell data: connected floors (sorted), fixed passing time and
the per-floor entry/exit position map (`Stairs.entries`; `get_exit_position`
and `get_entry_position` both read it). -/
structure StairsGeom where
  connecting_floors : List ℤ
  passing_time : ℝ
  entries : ℤ → Option (ℝ × ℝ)

/-- `Stairs.get_next_floor(current_floor, direction)`. -/
def getNextFloor (l : List ℤ) (cur : ℤ) (dir : MoveDir) : Option ℤ :=
  if cur ∈ l then
    match dir with
    | .down => if 0 < l.indexOf cur then l.get? (l.indexOf cur - 1) else none
    | .up => if l.indexOf cur < l.length - 1 then l.get? (l.indexOf cur + 1) else none
  else none

/-- The transit branch of `_update_agent_position`, returning the updated
agent and stairwell occupancy. -/
noncomputable def stairsTransitStep (geom : StairsGeom) (occ : Stairs) (dt : ℝ)
    (a : TransitAgent) : TransitAgent × Stairs :=
  if a.in_stairs then
    let p := a.stairs_progress - dt
    if p ≤ 0 then
      let occ2 := occ.exit.1
      match getNextFloor geom.connecting_floors a.floor a.move_direction with
      | none => ({ a with stairs_progress := p }, occ2)
      | some nf =>
          let a2 : TransitAgent :=
            { a with
              stairs_progress := p, floor := nf, in_stairs := false, path := [],
              target := none,
              target_kind := some (if nf = 1 then TargetKind.exitK else TargetKind.stairsK) }
          match geom.entries nf with
          | some pos => ({ a2 with position := pos }, occ2)
          | none => (a2, occ2)
    else ({ a with stairs_progress := p }, occ)
  else (a, occ)

/-- Claim C8: when an in-transit agent's progress countdown reaches zero or
below on a tick and its stairwell has a next floor in its travel direction
(with a known exit point there), the tick decrements the stairwell occupancy
by exactly one (the agent having entered, the count is positive), moves the
agent's floor to that next floor, clears the transit flag, resets route and
target so a new route is sought, and places the agent at the stairwell's
exit point on the new floor; and since the countdown starts at the fixed
passing time and falls by `dt` per tick, any tick count `n` that lets it
reach zero satisfies `n * dt ≥ passing_time`. -/
theorem c8_stairwell_transit_exit (geom : StairsGeom) (occ : Stairs) (dt : ℝ)
    (a : TransitAgent) (hin : a.in_stairs = true)
    (hp : a.stairs_progress - dt ≤ 0)
    (nf : ℤ) (hnf : getNextFloor geom.connecting_floors a.floor a.move_direction = some nf)
    (pos : ℝ × ℝ) (hpos : geom.entries nf = some pos)
    (hocc : 0 < occ.current_people) :
    (stairsTransitStep geom occ dt a).2.current_people = occ.current_people - 1 ∧
    (stairsTransitStep geom occ dt a).1.floor = nf ∧
    (stairsTransitStep geom occ dt a).1.in_stairs = false ∧
    (stairsTransitStep geom occ dt a).1.target = none ∧
    (stairsTransitStep geom occ dt a).1.path = [] ∧
    (stairsTransitStep geom occ dt a).1.position = pos ∧
    (∀ n : ℕ, geom.passing_time - n * dt ≤ 0 → geom.passing_time ≤ n * dt) := by
  have hstep : stairsTransitStep geom occ dt a =
      ({ a with
          stairs_progress := a.stairs_progress - dt, floor := nf, in_stairs := false,
          path := [], target := none,
          target_kind := some (if nf = 1 then TargetKind.exitK else TargetKind.stairsK),
          position := pos }, occ.exit.1) := by
    rw [stairsTransitStep, if_pos hin, if_pos hp, hnf]
    dsimp only
    rw [hpos]
  rw [hstep]
  refine ⟨?_, rfl, rfl, rfl, rfl, rfl, fun n hn => by linarith⟩
  rw [Stairs.exit, if_pos hocc]

/-- Witness for C8: the source's two-floor stairwell (floors [1, 2], passing
time 3 s, entries at (25, 37.5) and (35, 37.5)), one occupant, a 0.1 s tick
and an agent going down from floor 2 with 0.05 s of progress left. -/
theorem c8_stairwell_transit_exit_witness :
    (({ position := (35, 37.5), floor := 2, in_stairs := true, stairs_progress := 0.05,
        path := [], target := none, target_kind := some TargetKind.stairsK,
        move_direction := MoveDir.down } : TransitAgent).in_stairs = true) ∧
    ((0.05:ℝ) - 0.1 ≤ 0) ∧
    (stairsTransitStep
        { connecting_floors := [1, 2], passing_time := 3,
          entries := fun f => if f = 1 then some (25, 37.5)
            else if f = 2 then some (35, 37.5) else none }
        { capacity := 50, current_people := 1 } 0.1
        { position := (35, 37.5), floor := 2, in_stairs := true, stairs_progress := 0.05,
          path := [], target := none, target_kind := some TargetKind.stairsK,
          move_direction := MoveDir.down }).1.floor = 1 := by
  refine ⟨rfl, by norm_num, ?_⟩
  exact (c8_stairwell_transit_exit
    { connecting_floors := [1, 2], passing_time := 3,
      entries := fun f => if f = 1 then some (25, 37.5)
        else if f = 2 then some (35, 37.5) else none }
    { capacity := 50, current_people := 1 } 0.1
    { position := (35, 37.5), floor := 2, in_stairs := true, stairs_progress := 0.05,
      path := [], target := none, target_kind := some TargetKind.stairsK,
      move_direction := MoveDir.down }
    rfl (by norm_num) 1 (by decide) (25, 37.5) (by norm_num)
    (by norm_num)).2.1

/-! ## people_evacuation/pathfinding.py — grid and A* search

World coordinates are embedded as `ℚ` (the arithmetic the search performs on
them — `int(y / cell_size)`, `col * cell_size + cell_size/2` with
`cell_size = 0.5` — is exact in binary floating point, so `ℚ` is faithful).
Cells are `(row, col) : ℤ × ℤ`.  `queue.PriorityQueue` pops the least entry
in the total lexicographic order on `(priority, (row, col))` tuples, which
`popMin` implements on a list model of the queue.  The two dictionaries are
embedded as functions into `Option`.  The `while` loop is a well-founded
recursion: every iteration either records a new in-bounds cell, strictly
lowers some recorded cost, or shortens the frontier.  Path reconstruction
walks the parent chain with fuel `cost_so_far[goal] + 1`, which is proved
sufficient because recorded costs strictly decrease along parent links. -/

/-- A grid cell: `(row, col)`. -/
abbrev Cell : Type := ℤ × ℤ

/-- The occupancy grid: dimensions and the blocked array.  `blocked` is read
only at in-bounds cells. -/
structure OccGrid where
  rows : ℕ
  cols : ℕ
  blocked : ℤ → ℤ → Bool

/-- In-bounds test `0 <= r < rows and 0 <= c < cols` from `get_neighbors`. -/
def inBounds (g : OccGrid) (c : Cell) : Prop :=
  0 ≤ c.1 ∧ c.1 < g.rows ∧ 0 ≤ c.2 ∧ c.2 < g.cols

instance (g : OccGrid) (c : Cell) : Decidable (inBounds g c) := by
  unfold inBounds; infer_instance

/-- Python `int()` applied to a rational: truncation toward zero. -/
def pyInt (q : ℚ) : ℤ := if 0 ≤ q then ⌊q⌋ else -⌊-q⌋

/-- `Grid.world_to_grid(x, y) = (int(y / cell_size), int(x / cell_size))`
at the default `cell_size = 0.5`. -/
def worldToGrid (x y : ℚ) : Cell := (pyInt (y / 0.5), pyInt (x / 0.5))

/-- `Grid.grid_to_world(row, col)`: the world-space center of a cell. -/
def gridToWorld (c : Cell) : ℚ × ℚ := (c.2 * 0.5 + 0.5 / 2, c.1 * 0.5 + 0.5 / 2)

/-- `heuristic(a, b)`: Manhattan distance on cells. -/
def heuristic (a b : Cell) : ℕ := (a.1 - b.1).natAbs + (a.2 - b.2).natAbs

/-- Chebyshev distance on cells (the length of a shortest 8-connected path on
an unobstructed board). -/
def chebyshev (a b : Cell) : ℕ := max (a.1 - b.1).natAbs (a.2 - b.2).natAbs

/-- The eight neighbor offsets, in source order. -/
def dirs : List Cell := [(0,1), (1,0), (0,-1), (-1,0), (1,1), (1,-1), (-1,1), (-1,-1)]

/-- `get_neighbors(pos, grid)`: in-bounds, unblocked neighbors. -/
def getNeighbors (g : OccGrid) (p : Cell) : List Cell :=
  (dirs.map fun d => (p.1 + d.1, p.2 + d.2)).filter fun n =>
    decide (inBounds g n) && ! g.blocked n.1 n.2

/-- The mutable state of the search: the priority queue and the two
dictionaries `came_from` and `cost_so_far`. -/
structure AState where
  frontier : List (ℕ × Cell)
  came : Cell → Option (Option Cell)
  cost : Cell → Option ℕ

/-- The total order in which `queue.PriorityQueue` returns entries:
lexicographic on `(priority, (row, col))`. -/
def entLE (e f : ℕ × Cell) : Prop :=
  e.1 < f.1 ∨ (e.1 = f.1 ∧ (e.2.1 < f.2.1 ∨ (e.2.1 = f.2.1 ∧ e.2.2 ≤ f.2.2)))

instance (e f : ℕ × Cell) : Decidable (entLE e f) := by
  unfold entLE; infer_instance

/-- The smaller of two entries. -/
def minEnt (e f : ℕ × Cell) : ℕ × Cell := if entLE e f then e else f

/-- `frontier.get()`: remove and return the least entry. -/
def popMin (l : List (ℕ × Cell)) : Option ((ℕ × Cell) × List (ℕ × Cell)) :=
  match l with
  | [] => none
  | e :: es =>
      let m := es.foldl minEnt e
      some (m, l.erase m)

/-- Record `next_pos` with its new cost and parent and push it with priority
`new_cost + heuristic(goal_grid, next_pos)`. -/
def pushEntry (goal cur n : Cell) (newCost : ℕ) (s : AState) : AState :=
  { frontier := s.frontier ++ [(newCost + heuristic goal n, n)],
    came := fun c => if c = n then some (some cur) else s.came c,
    cost := fun c => if c = n then some newCost else s.cost c }

/-- The body of the `for next_pos in get_neighbors(...)` loop for one
neighbor.  (`cost_so_far[current]` is a `KeyError` in the source when
`current` is unrecorded; every popped cell is recorded, and the embedding
skips in that impossible case.) -/
def relaxOne (g : OccGrid) (goal cur : Cell) (s : AState) (n : Cell) : AState :=
  match s.cost cur with
  | none => s
  | some ccur =>
      match s.cost n with
      | none => pushEntry goal cur n (ccur + 1) s
      | some cn => if ccur + 1 < cn then pushEntry goal cur n (ccur + 1) s else s

/-- Expand `current`: relax all its neighbors. -/
def relaxAll (g : OccGrid) (goal cur : Cell) (s : AState) : AState :=
  (getNeighbors g cur).foldl (relaxOne g goal cur) s

/-- The in-bounds cells, as a finite set (for the termination measure). -/
def boundCells (g : OccGrid) : Finset Cell :=
  Finset.Icc 0 ((g.rows : ℤ) - 1) ×ˢ Finset.Icc 0 ((g.cols : ℤ) - 1)

/-- Number of in-bounds cells not yet recorded in `cost_so_far`. -/
def muFresh (g : OccGrid) (s : AState) : ℕ :=
  ((boundCells g).filter fun c => s.cost c = none).card

/-- Total recorded cost over the in-bounds cells. -/
def muCost (g : OccGrid) (s : AState) : ℕ :=
  ∑ c ∈ boundCells g, (s.cost c).getD 0

/-- Each loop iteration drives this triple lexicographically down: a fresh
cell is recorded, or a recorded cost strictly drops, or the frontier
shrinks by the popped entry. -/
def MeasureLE (g : OccGrid) (s t : AState) : Prop :=
  muFresh g s < muFresh g t ∨
    (muFresh g s = muFresh g t ∧ muCost g s < muCost g t) ∨
    (muFresh g s = muFresh g t ∧ muCost g s = muCost g t ∧ s.frontier = t.frontier)

theorem MeasureLE_trans (g : OccGrid) (a b c : AState)
    (hab : MeasureLE g a b) (hbc : MeasureLE g b c) : MeasureLE g a c := by
  rcases hab with h | ⟨h1, h2⟩ | ⟨h1, h2, h3⟩ <;>
    rcases hbc with h' | ⟨h1', h2'⟩ | ⟨h1', h2', h3'⟩ <;>
    unfold MeasureLE <;> first
      | (left; omega)
      | (right; left; constructor <;> omega)
      | (right; right; refine ⟨by omega, by omega, by rw [h3, h3']⟩)

theorem mem_getNeighbors (g : OccGrid) (p n : Cell) :
    n ∈ getNeighbors g p ↔
      ((∃ d ∈ dirs, n = (p.1 + d.1, p.2 + d.2)) ∧ inBounds g n ∧ g.blocked n.1 n.2 = false) := by
  unfold getNeighbors
  rw [List.mem_filter, List.mem_map]
  constructor
  · rintro ⟨⟨d, hd, rfl⟩, hcond⟩
    rw [Bool.and_eq_true, decide_eq_true_eq, Bool.not_eq_true'] at hcond
    exact ⟨⟨d, hd, rfl⟩, hcond.1, hcond.2⟩
  · rintro ⟨⟨d, hd, rfl⟩, hb, hbl⟩
    refine ⟨⟨d, hd, rfl⟩, ?_⟩
    rw [Bool.and_eq_true, decide_eq_true_eq, Bool.not_eq_true']
    exact ⟨hb, hbl⟩

theorem mem_boundCells (g : OccGrid) (c : Cell) : c ∈ boundCells g ↔ inBounds g c := by
  unfold boundCells inBounds
  rw [Finset.mem_product, Finset.mem_Icc, Finset.mem_Icc]
  omega

theorem pushEntry_cost (goal cur n : Cell) (k : ℕ) (s : AState) (c : Cell) :
    (pushEntry goal cur n k s).cost c = if c = n then some k else s.cost c := rfl

theorem muFresh_push_fresh (g : OccGrid) (goal cur n : Cell) (k : ℕ) (s : AState)
    (hn : inBounds g n) (hcn : s.cost n = none) :
    muFresh g (pushEntry goal cur n k s) < muFresh g s := by
  unfold muFresh
  apply Finset.card_lt_card
  constructor
  · intro c hc
    rw [Finset.mem_filter] at hc ⊢
    refine ⟨hc.1, ?_⟩
    have h2 := hc.2
    rw [pushEntry_cost] at h2
    by_cases hceq : c = n
    · rw [if_pos hceq] at h2; exact absurd h2 (by simp)
    · rw [if_neg hceq] at h2; exact h2
  · intro hsub
    have hnmem : n ∈ (boundCells g).filter fun c => s.cost c = none := by
      rw [Finset.mem_filter, mem_boundCells]
      exact ⟨hn, hcn⟩
    have h := hsub hnmem
    rw [Finset.mem_filter, pushEntry_cost, if_pos rfl] at h
    exact absurd h.2 (by simp)

theorem muFresh_push_recorded (g : OccGrid) (goal cur n : Cell) (k cn : ℕ) (s : AState)
    (hcn : s.cost n = some cn) :
    muFresh g (pushEntry goal cur n k s) = muFresh g s := by
  unfold muFresh
  congr 1
  apply Finset.filter_congr
  intro c _
  rw [pushEntry_cost]
  by_cases hceq : c = n
  · subst hceq
    rw [if_pos rfl, hcn]
    simp
  · rw [if_neg hceq]

theorem muCost_push_lt (g : OccGrid) (goal cur n : Cell) (k cn : ℕ) (s : AState)
    (hn : inBounds g n) (hcn : s.cost n = some cn) (hlt : k < cn) :
    muCost g (pushEntry goal cur n k s) < muCost g s := by
  unfold muCost
  apply Finset.sum_lt_sum
  · intro c _
    rw [pushEntry_cost]
    by_cases hceq : c = n
    · subst hceq
      rw [if_pos rfl, hcn]
      simp only [Option.getD_some]
      omega
    · rw [if_neg hceq]
  · refine ⟨n, (mem_boundCells g n).mpr hn, ?_⟩
    rw [pushEntry_cost, if_pos rfl, hcn]
    simp only [Option.getD_some]
    omega

theorem relaxOne_measure (g : OccGrid) (goal cur : Cell) (s : AState) (n : Cell)
    (hn : inBounds g n) : MeasureLE g (relaxOne g goal cur s n) s := by
  unfold relaxOne
  rcases hcur : s.cost cur with _ | ccur
  · exact Or.inr (Or.inr ⟨rfl, rfl, rfl⟩)
  · dsimp only
    rcases hcn : s.cost n with _ | cn
    · exact Or.inl (muFresh_push_fresh g goal cur n (ccur + 1) s hn hcn)
    · dsimp only
      split
      · rename_i hlt
        exact Or.inr (Or.inl ⟨muFresh_push_recorded g goal cur n (ccur + 1) cn s hcn,
          muCost_push_lt g goal cur n (ccur + 1) cn s hn hcn hlt⟩)
      · exact Or.inr (Or.inr ⟨rfl, rfl, rfl⟩)

theorem foldRelax_measure (g : OccGrid) (goal cur : Cell) :
    ∀ (L : List Cell) (s : AState), (∀ n ∈ L, inBounds g n) →
      MeasureLE g (L.foldl (relaxOne g goal cur) s) s := by
  intro L
  induction L with
  | nil => intro s _; exact Or.inr (Or.inr ⟨rfl, rfl, rfl⟩)
  | cons n L ih =>
      intro s hL
      rw [List.foldl_cons]
      exact MeasureLE_trans g _ _ _
        (ih _ fun m hm => hL m (List.mem_cons_of_mem _ hm))
        (relaxOne_measure g goal cur s n (hL n (List.mem_cons_self n L)))

theorem relaxAll_measure (g : OccGrid) (goal cur : Cell) (s : AState) :
    MeasureLE g (relaxAll g goal cur s) s := by
  apply foldRelax_measure
  intro n hn
  exact ((mem_getNeighbors g cur n).mp hn).2.1

theorem foldl_minEnt_mem : ∀ (es : List (ℕ × Cell)) (e : ℕ × Cell),
    es.foldl minEnt e ∈ e :: es := by
  intro es
  induction es with
  | nil => intro e; exact List.mem_singleton.mpr rfl
  | cons f fs ih =>
      intro e
      rw [List.foldl_cons]
      have h := ih (minEnt e f)
      have hmem : minEnt e f = e ∨ minEnt e f = f := by
        unfold minEnt; split <;> [left; right] <;> rfl
      rcases List.mem_cons.mp h with h' | h'
      · rw [h']
        rcases hmem with h2 | h2 <;> rw [h2]
        · exact List.mem_cons_self e _
        · exact List.mem_cons_of_mem _ (List.mem_cons_self f _)
      · exact List.mem_cons_of_mem _ (List.mem_cons_of_mem _ h')

theorem popMin_some (l : List (ℕ × Cell)) (e : ℕ × Cell) (rest : List (ℕ × Cell))
    (h : popMin l = some (e, rest)) : e ∈ l ∧ rest = l.erase e := by
  match l with
  | [] => exact absurd h (by simp [popMin])
  | f :: fs =>
      unfold popMin at h
      dsimp only at h
      rw [Option.some.injEq, Prod.mk.injEq] at h
      obtain ⟨h1, h2⟩ := h
      subst h1
      exact ⟨foldl_minEnt_mem fs f, h2.symm⟩

theorem popMin_rest_length (l : List (ℕ × Cell)) (e : ℕ × Cell) (rest : List (ℕ × Cell))
    (h : popMin l = some (e, rest)) : rest.length + 1 = l.length := by
  obtain ⟨hmem, hrest⟩ := popMin_some l e rest h
  rw [hrest, List.length_erase_of_mem hmem]
  have := List.length_pos_of_mem hmem
  omega

theorem lex3_of (a1 a2 a3 b1 b2 b3 : ℕ)
    (h : a1 < b1 ∨ (a1 = b1 ∧ a2 < b2) ∨ (a1 = b1 ∧ a2 = b2 ∧ a3 < b3)) :
    Prod.Lex (· < ·) (Prod.Lex (· < ·) (· < ·)) (a1, (a2, a3)) (b1, (b2, b3)) := by
  rcases h with h | ⟨h1, h2⟩ | ⟨h1, h2, h3⟩
  · exact Prod.Lex.left _ _ h
  · subst h1; exact Prod.Lex.right _ (Prod.Lex.left _ _ h2)
  · subst h1; subst h2; exact Prod.Lex.right _ (Prod.Lex.right _ h3)

/-- The `while not frontier.empty()` loop of `a_star`: pop the least entry,
stop at the goal, else expand and continue; return the two dictionaries. -/
def astarLoop (g : OccGrid) (goal : Cell) (st : AState) :
    (Cell → Option (Option Cell)) × (Cell → Option ℕ) :=
  match hpop : popMin st.frontier with
  | none => (st.came, st.cost)
  | some (e, rest) =>
      if e.2 = goal then (st.came, st.cost)
      else astarLoop g goal (relaxAll g goal e.2 { st with frontier := rest })
termination_by (muFresh g st, muCost g st, st.frontier.length)
decreasing_by
  apply lex3_of
  have hlen := popMin_rest_length st.frontier e rest hpop
  have hrel := relaxAll_measure g goal e.2 { st with frontier := rest }
  rcases hrel with h | ⟨h1, h2⟩ | ⟨h1, h2, h3⟩
  · left; exact h
  · right; left; exact ⟨h1, h2⟩
  · right; right
    refine ⟨h1, h2, ?_⟩
    rw [h3]
    dsimp only
    omega

/-- Path reconstruction: follow `came_from` from the goal, collecting the
world-space center of every cell, until the recorded parent is `None`
(reaching the start).  The source's `while cur is not None` loop is embedded
with fuel; `a_star` passes `cost_so_far[goal_grid] + 1`, which is enough
because recorded costs strictly decrease along parent links (proved below).
A missing key (`came_from[cur]` raising `KeyError`) stops the walk; it is
proved unreachable. -/
def walkPath (came : Cell → Option (Option Cell)) : ℕ → Cell → List (ℚ × ℚ)
  | 0, _ => []
  | fuel + 1, cur =>
      gridToWorld cur ::
        (match came cur with
         | some (some prev) => walkPath came fuel prev
         | _ => [])

/-- `a_star(start, goal, grid)`. -/
def a_star (start goal : ℚ × ℚ) (g : OccGrid) : List (ℚ × ℚ) :=
  let sg := worldToGrid start.1 start.2
  let gg := worldToGrid goal.1 goal.2
  let st0 : AState :=
    { frontier := [(0, sg)],
      came := fun c => if c = sg then some none else none,
      cost := fun c => if c = sg then some 0 else none }
  let res := astarLoop g gg st0
  match res.1 gg with
  | none => []
  | some _ => (walkPath res.1 ((res.2 gg).getD 0 + 1) gg).reverse

/-- Generic loop invariant: a predicate preserved by every expansion holds in
the final state, whose dictionaries the loop returns. -/
theorem astarLoop_inv (g : OccGrid) (goal : Cell) (P : AState → Prop)
    (hstep : ∀ st (e : ℕ × Cell) rest, popMin st.frontier = some (e, rest) →
      e.2 ≠ goal → P st → P (relaxAll g goal e.2 { st with frontier := rest }))
    (st : AState) (hst : P st) :
    ∃ fin : AState, astarLoop g goal st = (fin.came, fin.cost) ∧ P fin := by
  induction st using astarLoop.induct g goal with
  | case1 st hpop =>
      refine ⟨st, ?_, hst⟩
      rw [astarLoop, hpop]
  | case2 st e rest hpop hgoal =>
      refine ⟨st, ?_, hst⟩
      rw [astarLoop, hpop]
      simp only [hgoal, if_pos]
  | case3 st e rest hpop hgoal ih =>
      obtain ⟨fin, hfin, hPfin⟩ := ih (hstep st e rest hpop hgoal hst)
      refine ⟨fin, ?_, hPfin⟩
      rw [astarLoop, hpop]
      dsimp only
      rw [if_neg hgoal]
      exact hfin

/-- One unblocked 8-connected step on the grid. -/
def StepRel (g : OccGrid) (a b : Cell) : Prop := b ∈ getNeighbors g a

/-- Reachability through unblocked in-bounds cells, as in the claim. -/
def CellReachable (g : OccGrid) (s c : Cell) : Prop :=
  Relation.ReflTransGen (StepRel g) s c

/-- The search only ever records reachable cells, and the two dictionaries
always have the same keys. -/
def InvReach (g : OccGrid) (s : Cell) (st : AState) : Prop :=
  (∀ c, (st.cost c).isSome → CellReachable g s c) ∧
    (∀ c, (st.came c).isSome ↔ (st.cost c).isSome)

theorem relaxOne_invReach (g : OccGrid) (s0 goal cur : Cell) (s : AState) (n : Cell)
    (hn : n ∈ getNeighbors g cur) (hinv : InvReach g s0 s) :
    InvReach g s0 (relaxOne g goal cur s n) := by
  obtain ⟨hreach, hdom⟩ := hinv
  have hpush : (s.cost cur).isSome →
      InvReach g s0 (pushEntry goal cur n ((s.cost cur).getD 0 + 1) s) := by
    intro hcur
    constructor
    · intro c hc
      rw [pushEntry_cost] at hc
      by_cases hceq : c = n
      · subst hceq
        exact Relation.ReflTransGen.tail (hreach cur hcur) hn
      · rw [if_neg hceq] at hc
        exact hreach c hc
    · intro c
      show (if c = n then some (some cur) else s.came c).isSome ↔ _
      rw [pushEntry_cost]
      by_cases hceq : c = n
      · simp [hceq]
      · rw [if_neg hceq, if_neg hceq]
        exact hdom c
  unfold relaxOne
  rcases hcur : s.cost cur with _ | ccur
  · exact ⟨hreach, hdom⟩
  · dsimp only
    have hcur' : (s.cost cur).isSome := by rw [hcur]; rfl
    have hget : (s.cost cur).getD 0 = ccur := by rw [hcur]; rfl
    rcases hcn : s.cost n with _ | cn
    · have := hpush hcur'
      rw [hget] at this
      exact this
    · dsimp only
      split
      · have := hpush hcur'
        rw [hget] at this
        exact this
      · exact ⟨hreach, hdom⟩

theorem relaxAll_invReach (g : OccGrid) (s0 goal cur : Cell) (s : AState)
    (hinv : InvReach g s0 s) : InvReach g s0 (relaxAll g goal cur s) := by
  unfold relaxAll
  have hgen : ∀ (L : List Cell), (∀ n ∈ L, n ∈ getNeighbors g cur) → ∀ (s : AState),
      InvReach g s0 s → InvReach g s0 (L.foldl (relaxOne g goal cur) s) := by
    intro L
    induction L with
    | nil => intro _ s hs; exact hs
    | cons n L ih =>
        intro hL s hs
        rw [List.foldl_cons]
        exact ih (fun m hm => hL m (List.mem_cons_of_mem _ hm)) _
          (relaxOne_invReach g s0 goal cur s n (hL n (List.mem_cons_self n L)) hs)
  exact hgen _ (fun n hn => hn) s hinv

/-- Claim C9: whenever the goal cell is not reachable from the start cell
through in-bounds unblocked 8-connected steps, `a_star` returns the empty
route. -/
theorem c9_unreachable_returns_empty (g : OccGrid) (start goal : ℚ × ℚ)
    (hunreach : ¬ CellReachable g (worldToGrid start.1 start.2) (worldToGrid goal.1 goal.2)) :
    a_star start goal g = [] := by
  unfold a_star
  dsimp only
  set sg := worldToGrid start.1 start.2 with hsg
  set gg := worldToGrid goal.1 goal.2 with hgg
  have hinit : InvReach g sg
      { frontier := [(0, sg)],
        came := fun c => if c = sg then some none else none,
        cost := fun c => if c = sg then some 0 else none } := by
    constructor
    · intro c hc
      dsimp only at hc
      by_cases hceq : c = sg
      · subst hceq; exact Relation.ReflTransGen.refl
      · rw [if_neg hceq] at hc; exact absurd hc (by simp)
    · intro c
      dsimp only
      by_cases hceq : c = sg <;> simp [hceq]
  obtain ⟨fin, hfin, hreach, hdom⟩ := astarLoop_inv g gg (InvReach g sg)
    (fun st e rest _ _ hP => relaxAll_invReach g sg gg e.2 _ hP) _ hinit
  rw [hfin]
  dsimp only
  rcases hcame : fin.came gg with _ | w
  · rfl
  · exfalso
    apply hunreach
    apply hreach
    rw [← (hdom gg)]
    rw [hcame]
    rfl

theorem pyInt_half : pyInt (1/2 : ℚ) = 0 := by
  rw [pyInt, if_pos (by norm_num : (0:ℚ) ≤ 1/2)]
  rw [Int.floor_eq_iff]
  norm_num

theorem pyInt_five : pyInt (5 : ℚ) = 5 := by
  rw [pyInt, if_pos (by norm_num : (0:ℚ) ≤ 5)]
  rw [Int.floor_eq_iff]
  norm_num

/-- Witness for C9: a 1×1 unblocked grid; the goal world point (2.5, 2.5)
falls in cell (5, 5), which is out of bounds and hence unreachable from cell
(0, 0); the search returns the empty route. -/
theorem c9_unreachable_returns_empty_witness :
    ¬ CellReachable { rows := 1, cols := 1, blocked := fun _ _ => false }
        (worldToGrid (1/4) (1/4)) (worldToGrid (5/2) (5/2)) ∧
      a_star (1/4, 1/4) (5/2, 5/2) { rows := 1, cols := 1, blocked := fun _ _ => false } = [] := by
  have harg1 : ((1:ℚ)/4) / 0.5 = 1/2 := by norm_num
  have harg2 : ((5:ℚ)/2) / 0.5 = 5 := by norm_num
  have hsg : worldToGrid (1/4) (1/4) = ((0:ℤ), (0:ℤ)) := by
    rw [worldToGrid, harg1, pyInt_half]
  have hgg : worldToGrid (5/2) (5/2) = ((5:ℤ), (5:ℤ)) := by
    rw [worldToGrid, harg2, pyInt_five]
  have hunreach : ¬ CellReachable { rows := 1, cols := 1, blocked := fun _ _ => false }
      (worldToGrid (1/4) (1/4)) (worldToGrid (5/2) (5/2)) := by
    rw [hsg, hgg]
    intro h
    rcases Relation.ReflTransGen.cases_tail h with heq | ⟨b, _, hstep⟩
    · rw [Prod.mk.injEq] at heq
      exact absurd heq.1 (by decide)
    · have hb := ((mem_getNeighbors _ _ _).mp hstep).2.1
      obtain ⟨_, h2, _, _⟩ := hb
      revert h2
      decide
  exact ⟨hunreach, c9_unreachable_returns_empty _ _ _ hunreach⟩

theorem dirs_ne_zero : ∀ d ∈ dirs, ¬ (d.1 = 0 ∧ d.2 = 0) := by decide

theorem neighbor_ne (g : OccGrid) (p n : Cell) (hn : n ∈ getNeighbors g p) : n ≠ p := by
  obtain ⟨⟨d, hd, rfl⟩, _, _⟩ := (mem_getNeighbors g p n).mp hn
  intro h
  rw [Prod.mk.injEq] at h
  exact dirs_ne_zero d hd ⟨by omega, by omega⟩

/-- The parent-chain structure the search maintains: the dictionaries share
their key set, the start is recorded with parent `None` and cost 0, only the
start has parent `None`, and recorded costs strictly decrease from a cell to
its parent. -/
def InvChain (sg : Cell) (st : AState) : Prop :=
  (∀ c, (st.came c).isSome ↔ (st.cost c).isSome) ∧
  st.came sg = some none ∧
  st.cost sg = some 0 ∧
  (∀ c, st.came c = some none → c = sg) ∧
  (∀ c pc, st.came c = some (some pc) →
    ∃ kc kp, st.cost c = some kc ∧ st.cost pc = some kp ∧ kp < kc)

theorem pushEntry_came (goal cur n : Cell) (k : ℕ) (s : AState) (c : Cell) :
    (pushEntry goal cur n k s).came c = if c = n then some (some cur) else s.came c := rfl

theorem pushEntry_invChain (sg goal cur n : Cell) (ccur : ℕ) (s : AState)
    (hinv : InvChain sg s) (hncur : n ≠ cur) (hcur : s.cost cur = some ccur)
    (hnsg : n ≠ sg) (hless : ∀ v, s.cost n = some v → ccur + 1 < v) :
    InvChain sg (pushEntry goal cur n (ccur + 1) s) := by
  obtain ⟨hdom, hcsg, hcost0, hnone, hdec⟩ := hinv
  refine ⟨?_, ?_, ?_, ?_, ?_⟩
  · intro c
    rw [pushEntry_came, pushEntry_cost]
    by_cases hceq : c = n
    · simp [hceq]
    · rw [if_neg hceq, if_neg hceq]; exact hdom c
  · rw [pushEntry_came, if_neg (fun h => hnsg h.symm)]
    exact hcsg
  · rw [pushEntry_cost, if_neg (fun h => hnsg h.symm)]
    exact hcost0
  · intro c hc
    rw [pushEntry_came] at hc
    by_cases hceq : c = n
    · rw [if_pos hceq] at hc
      exact absurd hc (by simp)
    · rw [if_neg hceq] at hc
      exact hnone c hc
  · intro c pc hc
    rw [pushEntry_came] at hc
    by_cases hceq : c = n
    · rw [if_pos hceq] at hc
      rw [Option.some.injEq, Option.some.injEq] at hc
      refine ⟨ccur + 1, ccur, ?_, ?_, by omega⟩
      · rw [pushEntry_cost, if_pos hceq]
      · rw [pushEntry_cost,
          if_neg (show pc ≠ n by intro h; exact hncur (by rw [← h, ← hc])), ← hc]
        exact hcur
    · rw [if_neg hceq] at hc
      obtain ⟨kc, kp, hkc, hkp, hlt⟩ := hdec c pc hc
      by_cases hpceq : pc = n
      · subst hpceq
        have hlt2 := hless kp hkp
        refine ⟨kc, ccur + 1, ?_, ?_, by omega⟩
        · rw [pushEntry_cost, if_neg hceq]; exact hkc
        · rw [pushEntry_cost, if_pos rfl]
      · refine ⟨kc, kp, ?_, ?_, hlt⟩
        · rw [pushEntry_cost, if_neg hceq]; exact hkc
        · rw [pushEntry_cost, if_neg hpceq]; exact hkp

theorem relaxOne_invChain (g : OccGrid) (sg goal cur : Cell) (s : AState) (n : Cell)
    (hn : n ∈ getNeighbors g cur) (hinv : InvChain sg s) :
    InvChain sg (relaxOne g goal cur s n) := by
  have hncur : n ≠ cur := neighbor_ne g cur n hn
  unfold relaxOne
  rcases hcur : s.cost cur with _ | ccur
  · exact hinv
  · dsimp only
    rcases hcn : s.cost n with _ | cn
    · have hnsg : n ≠ sg := by
        intro h
        rw [h, hinv.2.2.1] at hcn
        exact absurd hcn (by simp)
      exact pushEntry_invChain sg goal cur n ccur s hinv hncur hcur hnsg
        (fun v hv => by rw [hcn] at hv; exact absurd hv (by simp))
    · dsimp only
      split
      · rename_i hlt
        have hnsg : n ≠ sg := by
          intro h
          rw [h, hinv.2.2.1] at hcn
          rw [Option.some.injEq] at hcn
          omega
        exact pushEntry_invChain sg goal cur n ccur s hinv hncur hcur hnsg
          (fun v hv => by rw [hcn] at hv; rw [Option.some.injEq] at hv; omega)
      · exact hinv

theorem relaxAll_invChain (g : OccGrid) (sg goal cur : Cell) (s : AState)
    (hinv : InvChain sg s) : InvChain sg (relaxAll g goal cur s) := by
  unfold relaxAll
  have hgen : ∀ (L : List Cell), (∀ n ∈ L, n ∈ getNeighbors g cur) → ∀ (s : AState),
      InvChain sg s → InvChain sg (L.foldl (relaxOne g goal cur) s) := by
    intro L
    induction L with
    | nil => intro _ s hs; exact hs
    | cons n L ih =>
        intro hL s hs
        rw [List.foldl_cons]
        exact ih (fun m hm => hL m (List.mem_cons_of_mem _ hm)) _
          (relaxOne_invChain g sg goal cur s n (hL n (List.mem_cons_self n L)) hs)
  exact hgen _ (fun n hn => hn) s hinv

/-- Walking the parent chain from any recorded cell, with fuel one more than
its recorded cost, yields a nonempty waypoint list that starts at that cell's
center and ends at the start cell's center. -/
theorem walkPath_chain (sg : Cell) (came : Cell → Option (Option Cell))
    (cost : Cell → Option ℕ)
    (hdom : ∀ c, (came c).isSome ↔ (cost c).isSome)
    (hstart : ∀ c, came c = some none → c = sg)
    (hdec : ∀ c pc, came c = some (some pc) →
      ∃ kc kp, cost c = some kc ∧ cost pc = some kp ∧ kp < kc) :
    ∀ k : ℕ, ∀ c, cost c = some k → ∀ fuel, k < fuel →
      walkPath came fuel c ≠ [] ∧
      (walkPath came fuel c).head? = some (gridToWorld c) ∧
      (walkPath came fuel c).getLast? = some (gridToWorld sg) := by
  intro k
  induction k using Nat.strong_induction_on with
  | _ k ih =>
    intro c hc fuel hfuel
    obtain ⟨m, rfl⟩ : ∃ m, fuel = m + 1 := ⟨fuel - 1, by omega⟩
    have hcame : (came c).isSome := by
      rw [hdom c, hc]
      rfl
    rcases hval : came c with _ | w
    · rw [hval] at hcame
      exact absurd hcame (by simp)
    · rcases w with _ | pc
      · have hcsg : c = sg := hstart c hval
        rw [walkPath, hval]
        subst hcsg
        exact ⟨by simp, by simp, by simp⟩
      · obtain ⟨kc, kp, hkc, hkp, hlt⟩ := hdec c pc hval
        rw [hc, Option.some.injEq] at hkc
        have hkm : kp < m := by omega
        obtain ⟨hne, hhead, hlast⟩ := ih kp (by omega) pc hkp m hkm
        rw [walkPath, hval]
        dsimp only
        obtain ⟨r, t, hrt⟩ := List.exists_cons_of_ne_nil hne
        rw [hrt]
        refine ⟨by simp, by simp, ?_⟩
        rw [List.getLast?_cons_cons]
        rw [← hrt]
        exact hlast

/-- Claim C10: every non-empty route returned by `a_star` begins at the
world-space center of the cell containing the start coordinate and ends at
the world-space center of the cell containing the goal coordinate. -/
theorem c10_route_endpoints (g : OccGrid) (start goal : ℚ × ℚ)
    (hne : a_star start goal g ≠ []) :
    (a_star start goal g).head? =
      some (gridToWorld (worldToGrid start.1 start.2)) ∧
    (a_star start goal g).getLast? =
      some (gridToWorld (worldToGrid goal.1 goal.2)) := by
  unfold a_star at *
  dsimp only at *
  set sg := worldToGrid start.1 start.2 with hsg
  set gg := worldToGrid goal.1 goal.2 with hgg
  have hinit : InvChain sg
      { frontier := [(0, sg)],
        came := fun c => if c = sg then some none else none,
        cost := fun c => if c = sg then some 0 else none } := by
    refine ⟨?_, ?_, ?_, ?_, ?_⟩
    · intro c
      dsimp only
      by_cases hceq : c = sg <;> simp [hceq]
    · dsimp only
      rw [if_pos rfl]
    · dsimp only
      rw [if_pos rfl]
    · intro c hc
      dsimp only at hc
      by_cases hceq : c = sg
      · exact hceq
      · rw [if_neg hceq] at hc
        exact absurd hc (by simp)
    · intro c pc hc
      dsimp only at hc
      by_cases hceq : c = sg
      · rw [if_pos hceq] at hc
        exact absurd hc (by simp)
      · rw [if_neg hceq] at hc
        exact absurd hc (by simp)
  obtain ⟨fin, hfin, hinv⟩ := astarLoop_inv g gg (InvChain sg)
    (fun st e rest _ _ hP => relaxAll_invChain g sg gg e.2 _ hP) _ hinit
  rw [hfin] at hne ⊢
  dsimp only at hne ⊢
  obtain ⟨hdom, hcsg, hcost0, hnone, hdec⟩ := hinv
  cases hcame : fin.came gg with
  | none =>
      rw [hcame] at hne
      exact absurd rfl hne
  | some w =>
      rw [hcame] at hne
      dsimp only at hne ⊢
      have hcost : (fin.cost gg).isSome := by
        rw [← hdom gg, hcame]
        rfl
      cases hkg : fin.cost gg with
      | none =>
          rw [hkg] at hcost
          exact absurd hcost (by simp)
      | some kg =>
          simp only [Option.getD_some]
          obtain ⟨hwne, hwhead, hwlast⟩ :=
            walkPath_chain sg fin.came fin.cost hdom hnone hdec kg gg hkg (kg + 1) (by omega)
          constructor
          · rw [List.head?_reverse]
            exact hwlast
          · rw [List.getLast?_reverse]
            exact hwhead

/-- Witness for C10: on the 1×1 unblocked grid, routing from (0.25, 0.25) to
itself yields the one-waypoint route at cell (0, 0)'s center, whose first
and last waypoints the theorem then equates with that center. -/
theorem c10_route_endpoints_witness :
    a_star (1/4, 1/4) (1/4, 1/4) { rows := 1, cols := 1, blocked := fun _ _ => false } ≠ [] ∧
    (a_star (1/4, 1/4) (1/4, 1/4)
        { rows := 1, cols := 1, blocked := fun _ _ => false }).head? =
      some (gridToWorld (worldToGrid (1/4) (1/4))) ∧
    (a_star (1/4, 1/4) (1/4, 1/4)
        { rows := 1, cols := 1, blocked := fun _ _ => false }).getLast? =
      some (gridToWorld (worldToGrid (1/4) (1/4))) := by
  have harg1 : ((1:ℚ)/4) / 0.5 = 1/2 := by norm_num
  have hsg : worldToGrid (1/4) (1/4) = ((0:ℤ), (0:ℤ)) := by
    rw [worldToGrid, harg1, pyInt_half]
  have hne : a_star (1/4, 1/4) (1/4, 1/4)
      { rows := 1, cols := 1, blocked := fun _ _ => false } ≠ [] := by
    unfold a_star
    dsimp only
    rw [hsg]
    have hp : popMin [((0:ℕ), ((0:ℤ), (0:ℤ)))] = some ((0, (0, 0)), []) := rfl
    rw [astarLoop, hp]
    dsimp only
    rw [if_pos rfl]
    dsimp only
    rw [if_pos rfl]
    dsimp only
    rw [walkPath]
    simp
  exact ⟨hne, (c10_route_endpoints _ _ _ hne).1, (c10_route_endpoints _ _ _ hne).2⟩

/-! ### The geodesic expanded by A* on an empty grid

On a grid with no blocked cells the search expands, in order, the cells of
the canonical 8-connected geodesic from the start cell to the goal cell:
first diagonal steps, then straight ones.  `istep` is one such step toward
`t`; `cascade s t k` is the cell reached after `k` steps. -/

def istep (t c : Cell) : Cell := (c.1 + (t.1 - c.1).sign, c.2 + (t.2 - c.2).sign)

def cascade (s t : Cell) : ℕ → Cell
  | 0 => s
  | k + 1 => istep t (cascade s t k)

theorem cascade_succ (s t : Cell) (k : ℕ) :
    cascade s t (k + 1) = istep t (cascade s t k) := rfl

theorem sign_min_step (a : ℤ) (k : ℕ) :
    a.sign * min (k : ℤ) (a.natAbs : ℤ) +
      (a - a.sign * min (k : ℤ) (a.natAbs : ℤ)).sign =
      a.sign * min ((k : ℤ) + 1) (a.natAbs : ℤ) := by
  set m := min (k : ℤ) (a.natAbs : ℤ) with hm
  rcases lt_trichotomy a 0 with h | h | h
  · rw [Int.sign_eq_neg_one_of_neg h]
    rcases lt_trichotomy (a - -1 * m) 0 with h2 | h2 | h2
    · rw [Int.sign_eq_neg_one_of_neg h2]
      omega
    · rw [h2, Int.sign_zero]
      omega
    · rw [Int.sign_eq_one_of_pos h2]
      omega
  · subst h
    simp
  · rw [Int.sign_eq_one_of_pos h]
    rcases lt_trichotomy (a - 1 * m) 0 with h2 | h2 | h2
    · rw [Int.sign_eq_neg_one_of_neg h2]
      omega
    · rw [h2, Int.sign_zero]
      omega
    · rw [Int.sign_eq_one_of_pos h2]
      omega

theorem cascade_closed (s t : Cell) (k : ℕ) :
    cascade s t k =
      (s.1 + (t.1 - s.1).sign * min (k : ℤ) ((t.1 - s.1).natAbs : ℤ),
       s.2 + (t.2 - s.2).sign * min (k : ℤ) ((t.2 - s.2).natAbs : ℤ)) := by
  induction k with
  | zero => simp [cascade]
  | succ k ih =>
      rw [cascade_succ, ih, istep]
      dsimp only
      have hc : ((k + 1 : ℕ) : ℤ) = (k : ℤ) + 1 := by push_cast; ring
      rw [hc]
      refine Prod.ext ?_ ?_ <;> dsimp only
      · have e : t.1 - (s.1 + (t.1 - s.1).sign * min (k : ℤ) ((t.1 - s.1).natAbs : ℤ)) =
            (t.1 - s.1) - (t.1 - s.1).sign * min (k : ℤ) ((t.1 - s.1).natAbs : ℤ) := by ring
        rw [e, add_assoc, sign_min_step]
      · have e : t.2 - (s.2 + (t.2 - s.2).sign * min (k : ℤ) ((t.2 - s.2).natAbs : ℤ)) =
            (t.2 - s.2) - (t.2 - s.2).sign * min (k : ℤ) ((t.2 - s.2).natAbs : ℤ) := by ring
        rw [e, add_assoc, sign_min_step]

theorem cascade_top (s t : Cell) (k : ℕ) (hk : chebyshev s t ≤ k) : cascade s t k = t := by
  rw [cascade_closed]
  unfold chebyshev at hk
  have h1 : min (k : ℤ) ((t.1 - s.1).natAbs : ℤ) = ((t.1 - s.1).natAbs : ℤ) := by omega
  have h2 : min (k : ℤ) ((t.2 - s.2).natAbs : ℤ) = ((t.2 - s.2).natAbs : ℤ) := by omega
  rw [h1, h2, Int.sign_mul_natAbs, Int.sign_mul_natAbs]
  refine Prod.ext ?_ ?_ <;> dsimp only <;> ring

theorem chebyshev_self (c : Cell) : chebyshev c c = 0 := by
  unfold chebyshev
  omega

theorem chebyshev_eq_zero (a b : Cell) (h : chebyshev a b = 0) : a = b := by
  unfold chebyshev at h
  refine Prod.ext ?_ ?_ <;> omega

theorem cascade_sub_fst (s t : Cell) (i j : ℕ) :
    (cascade s t i).1 - (cascade s t j).1 =
      (t.1 - s.1).sign *
        (min (i : ℤ) ((t.1 - s.1).natAbs : ℤ) - min (j : ℤ) ((t.1 - s.1).natAbs : ℤ)) := by
  rw [cascade_closed, cascade_closed]
  dsimp only
  ring

theorem cascade_sub_snd (s t : Cell) (i j : ℕ) :
    (cascade s t i).2 - (cascade s t j).2 =
      (t.2 - s.2).sign *
        (min (i : ℤ) ((t.2 - s.2).natAbs : ℤ) - min (j : ℤ) ((t.2 - s.2).natAbs : ℤ)) := by
  rw [cascade_closed, cascade_closed]
  dsimp only
  ring

theorem chebyshev_cascade (s t : Cell) (i j : ℕ) (hij : i ≤ j) (hj : j ≤ chebyshev s t) :
    chebyshev (cascade s t i) (cascade s t j) = j - i := by
  unfold chebyshev at hj ⊢
  rw [cascade_sub_fst, cascade_sub_snd, Int.natAbs_mul, Int.natAbs_mul,
    Int.natAbs_sign, Int.natAbs_sign]
  have e1 : (s.1 - t.1).natAbs = (t.1 - s.1).natAbs := by omega
  have e2 : (s.2 - t.2).natAbs = (t.2 - s.2).natAbs := by omega
  rw [e1, e2] at hj
  split_ifs with hA hB hB
  · simp only [zero_mul]
    omega
  · simp only [zero_mul, one_mul]
    omega
  · simp only [zero_mul, one_mul]
    omega
  · simp only [one_mul]
    omega

theorem heuristic_cascade (s t : Cell) (k : ℕ) :
    heuristic t (cascade s t k) =
      ((t.1 - s.1).natAbs - min k (t.1 - s.1).natAbs) +
        ((t.2 - s.2).natAbs - min k (t.2 - s.2).natAbs) := by
  unfold heuristic
  have e1 : t.1 - (cascade s t k).1 =
      (t.1 - s.1).sign * (((t.1 - s.1).natAbs : ℤ) - min (k : ℤ) ((t.1 - s.1).natAbs : ℤ)) := by
    rw [cascade_closed]
    dsimp only
    rw [mul_sub, Int.sign_mul_natAbs]
    ring
  have e2 : t.2 - (cascade s t k).2 =
      (t.2 - s.2).sign * (((t.2 - s.2).natAbs : ℤ) - min (k : ℤ) ((t.2 - s.2).natAbs : ℤ)) := by
    rw [cascade_closed]
    dsimp only
    rw [mul_sub, Int.sign_mul_natAbs]
    ring
  rw [e1, e2, Int.natAbs_mul, Int.natAbs_mul, Int.natAbs_sign, Int.natAbs_sign]
  split_ifs with hA hB hB
  · simp only [zero_mul]
    omega
  · simp only [zero_mul, one_mul]
    omega
  · simp only [zero_mul, one_mul]
    omega
  · simp only [one_mul]
    omega

theorem coord_between (p q : ℤ) (k : ℕ) :
    min p q ≤ p + (q - p).sign * min (k : ℤ) ((q - p).natAbs : ℤ) ∧
      p + (q - p).sign * min (k : ℤ) ((q - p).natAbs : ℤ) ≤ max p q := by
  rcases lt_trichotomy (q - p) 0 with h | h | h
  · rw [Int.sign_eq_neg_one_of_neg h]
    omega
  · rw [h, Int.sign_zero]
    omega
  · rw [Int.sign_eq_one_of_pos h]
    omega

theorem cascade_inBounds (g : OccGrid) (s t : Cell) (hs : inBounds g s) (ht : inBounds g t)
    (k : ℕ) : inBounds g (cascade s t k) := by
  have hb1 := coord_between s.1 t.1 k
  have hb2 := coord_between s.2 t.2 k
  unfold inBounds at hs ht ⊢
  rw [cascade_closed]
  dsimp only
  refine ⟨?_, ?_, ?_, ?_⟩ <;> omega

theorem cascade_ne_top (s t : Cell) (k : ℕ) (hk : k < chebyshev s t) :
    cascade s t k ≠ t := by
  intro heq
  have h := chebyshev_cascade s t k (chebyshev s t) (le_of_lt hk) le_rfl
  rw [cascade_top s t (chebyshev s t) le_rfl, heq, chebyshev_self] at h
  omega

/-- The priority carried by the frontier entry for `cascade s t k`: the start
is enqueued with priority 0, later cells with cost plus heuristic. -/
def fvalEntry (s t : Cell) (k : ℕ) : ℕ :=
  if k = 0 then 0 else k + heuristic t (cascade s t k)

/-- Cost plus heuristic of the `k`-th cascade cell. -/
def ftrue (s t : Cell) (k : ℕ) : ℕ := k + heuristic t (cascade s t k)

theorem fvalEntry_le_ftrue (s t : Cell) (k : ℕ) : fvalEntry s t k ≤ ftrue s t k := by
  unfold fvalEntry ftrue
  split <;> omega

theorem fvalEntry_succ (s t : Cell) (k : ℕ) :
    fvalEntry s t (k + 1) = k + 1 + heuristic t (cascade s t (k + 1)) := by
  unfold fvalEntry
  rw [if_neg (by omega)]

theorem ftrue_succ_le (s t : Cell) (k : ℕ) (hk : k < chebyshev s t) :
    ftrue s t (k + 1) ≤ ftrue s t k := by
  unfold ftrue
  rw [heuristic_cascade, heuristic_cascade]
  unfold chebyshev at hk
  have e1 : (s.1 - t.1).natAbs = (t.1 - s.1).natAbs := by omega
  have e2 : (s.2 - t.2).natAbs = (t.2 - s.2).natAbs := by omega
  rw [e1, e2] at hk
  omega

theorem mem_dirs_iff (d : Cell) :
    d ∈ dirs ↔ (d.1.natAbs ≤ 1 ∧ d.2.natAbs ≤ 1 ∧ d ≠ (0, 0)) := by
  constructor
  · intro h
    fin_cases h <;> refine ⟨by decide, by decide, by decide⟩
  · rintro ⟨h1, h2, h3⟩
    have h3' : ¬ (d.1 = 0 ∧ d.2 = 0) := by
      rintro ⟨ha, hb⟩
      exact h3 (Prod.ext ha hb)
    obtain ⟨d1, d2⟩ := d
    dsimp only at h1 h2 h3'
    have hd1 : d1 = -1 ∨ d1 = 0 ∨ d1 = 1 := by omega
    have hd2 : d2 = -1 ∨ d2 = 0 ∨ d2 = 1 := by omega
    rcases hd1 with rfl | rfl | rfl <;> rcases hd2 with rfl | rfl | rfl <;>
      first
        | decide
        | (exact absurd ⟨rfl, rfl⟩ h3')

theorem adjacent_mem_getNeighbors (g : OccGrid) (hempty : ∀ r c, g.blocked r c = false)
    (p n : Cell) : n ∈ getNeighbors g p ↔ (chebyshev p n = 1 ∧ inBounds g n) := by
  rw [mem_getNeighbors]
  constructor
  · rintro ⟨⟨d, hd, rfl⟩, hb, _⟩
    refine ⟨?_, hb⟩
    rw [mem_dirs_iff] at hd
    obtain ⟨h1, h2, h3⟩ := hd
    have h3' : ¬ (d.1 = 0 ∧ d.2 = 0) := by
      rintro ⟨ha, hb'⟩
      exact h3 (Prod.ext ha hb')
    unfold chebyshev
    dsimp only
    omega
  · rintro ⟨hch, hb⟩
    refine ⟨⟨(n.1 - p.1, n.2 - p.2), ?_, ?_⟩, hb, hempty n.1 n.2⟩
    · rw [mem_dirs_iff]
      unfold chebyshev at hch
      refine ⟨by dsimp only; omega, by dsimp only; omega, ?_⟩
      rintro heq
      rw [Prod.ext_iff] at heq
      dsimp only at heq
      omega
    · refine Prod.ext ?_ ?_ <;> dsimp only <;> ring
  
theorem getNeighbors_nodup (g : OccGrid) (p : Cell) : (getNeighbors g p).Nodup := by
  unfold getNeighbors
  apply List.Nodup.filter
  apply List.Nodup.map
  · intro a b hab
    rw [Prod.ext_iff] at hab
    dsimp only at hab
    refine Prod.ext ?_ ?_ <;> omega
  · decide

theorem self_not_mem_getNeighbors (g : OccGrid) (p : Cell) : p ∉ getNeighbors g p := by
  intro h
  exact neighbor_ne g p p h rfl

/-- Among all cells adjacent to `c`, the canonical step toward `t` has the
strictly least Manhattan heuristic to `t` (uniqueness of the minimum): the
Manhattan heuristic never ties A* away from the diagonal-then-straight
geodesic. -/
theorem istep_strict_min (c t n : Cell) (hct : c ≠ t)
    (hadj : chebyshev c n = 1) (hne : n ≠ istep t c) :
    heuristic t (istep t c) < heuristic t n := by
  have hct' : ¬ (t.1 - c.1 = 0 ∧ t.2 - c.2 = 0) := by
    rintro ⟨h1, h2⟩
    exact hct (Prod.ext (by omega) (by omega))
  unfold chebyshev at hadj
  unfold istep at hne ⊢
  unfold heuristic
  dsimp only
  rcases lt_trichotomy (t.1 - c.1) 0 with hA | hA | hA <;>
    rcases lt_trichotomy (t.2 - c.2) 0 with hB | hB | hB
  case inl.inl =>
    rw [Int.sign_eq_neg_one_of_neg hA, Int.sign_eq_neg_one_of_neg hB] at hne ⊢
    rw [Ne, Prod.ext_iff, not_and_or] at hne
    dsimp only at hne
    omega
  case inl.inr.inl =>
    rw [Int.sign_eq_neg_one_of_neg hA, hB, Int.sign_zero] at hne ⊢
    rw [Ne, Prod.ext_iff, not_and_or] at hne
    dsimp only at hne
    omega
  case inl.inr.inr =>
    rw [Int.sign_eq_neg_one_of_neg hA, Int.sign_eq_one_of_pos hB] at hne ⊢
    rw [Ne, Prod.ext_iff, not_and_or] at hne
    dsimp only at hne
    omega
  case inr.inl.inl =>
    rw [hA, Int.sign_zero, Int.sign_eq_neg_one_of_neg hB] at hne ⊢
    rw [Ne, Prod.ext_iff, not_and_or] at hne
    dsimp only at hne
    omega
  case inr.inl.inr.inl =>
    exact absurd ⟨hA, hB⟩ hct'
  case inr.inl.inr.inr =>
    rw [hA, Int.sign_zero, Int.sign_eq_one_of_pos hB] at hne ⊢
    rw [Ne, Prod.ext_iff, not_and_or] at hne
    dsimp only at hne
    omega
  case inr.inr.inl =>
    rw [Int.sign_eq_one_of_pos hA, Int.sign_eq_neg_one_of_neg hB] at hne ⊢
    rw [Ne, Prod.ext_iff, not_and_or] at hne
    dsimp only at hne
    omega
  case inr.inr.inr.inl =>
    rw [Int.sign_eq_one_of_pos hA, hB, Int.sign_zero] at hne ⊢
    rw [Ne, Prod.ext_iff, not_and_or] at hne
    dsimp only at hne
    omega
  case inr.inr.inr.inr =>
    rw [Int.sign_eq_one_of_pos hA, Int.sign_eq_one_of_pos hB] at hne ⊢
    rw [Ne, Prod.ext_iff, not_and_or] at hne
    dsimp only at hne
    omega

theorem entLE_refl (e : ℕ × Cell) : entLE e e := by
  unfold entLE
  omega

theorem entLE_total (e f : ℕ × Cell) : entLE e f ∨ entLE f e := by
  unfold entLE
  omega

theorem entLE_trans (e f h : ℕ × Cell) (h1 : entLE e f) (h2 : entLE f h) : entLE e h := by
  unfold entLE at *
  omega

theorem minEnt_le_left (e f : ℕ × Cell) : entLE (minEnt e f) e := by
  unfold minEnt
  split
  · exact entLE_refl e
  · rename_i h
    rcases entLE_total e f with h' | h'
    · exact absurd h' h
    · exact h'

theorem minEnt_le_right (e f : ℕ × Cell) : entLE (minEnt e f) f := by
  unfold minEnt
  split
  · assumption
  · exact entLE_refl f

theorem foldl_minEnt_le : ∀ (es : List (ℕ × Cell)) (e : ℕ × Cell),
    entLE (es.foldl minEnt e) e ∧ ∀ f ∈ es, entLE (es.foldl minEnt e) f := by
  intro es
  induction es with
  | nil =>
      intro e
      exact ⟨entLE_refl e, by intro f hf; exact absurd hf (List.not_mem_nil f)⟩
  | cons f fs ih =>
      intro e
      rw [List.foldl_cons]
      obtain ⟨ih1, ih2⟩ := ih (minEnt e f)
      refine ⟨entLE_trans _ _ _ ih1 (minEnt_le_left e f), ?_⟩
      intro x hx
      rcases List.mem_cons.mp hx with rfl | hx'
      · exact entLE_trans _ _ _ ih1 (minEnt_le_right e x)
      · exact ih2 x hx'

theorem popMin_strict (l₁ l₂ : List (ℕ × Cell)) (e : ℕ × Cell)
    (hbound : ∀ f ∈ l₁ ++ l₂, e.1 < f.1) :
    popMin (l₁ ++ e :: l₂) = some (e, l₁ ++ l₂) := by
  have hne : e ∉ l₁ := by
    intro h
    have := hbound e (List.mem_append_left l₂ h)
    omega
  have hmeme : e ∈ l₁ ++ e :: l₂ :=
    List.mem_append_right l₁ (List.mem_cons_self e l₂)
  rcases hl : l₁ ++ e :: l₂ with _ | ⟨h, tl⟩
  · exact absurd hl (by cases l₁ <;> simp)
  · unfold popMin
    dsimp only
    set m := tl.foldl minEnt h with hmdef
    have hm := foldl_minEnt_le tl h
    have hmem : m ∈ h :: tl := foldl_minEnt_mem tl h
    have hmle : entLE m e := by
      rw [hl] at hmeme
      rcases List.mem_cons.mp hmeme with heq | he'
      · rw [hmdef, heq]
        exact hm.1
      · exact hm.2 e he'
    have hme : m = e := by
      have hmem' : m ∈ l₁ ++ e :: l₂ := by
        rw [hl]
        exact hmem
      rcases List.mem_append.mp hmem' with hA | hB
      · have hlt := hbound m (List.mem_append_left l₂ hA)
        exact absurd hmle (by unfold entLE; omega)
      · rcases List.mem_cons.mp hB with h' | h'
        · exact h'
        · have hlt := hbound m (List.mem_append_right l₁ h')
          exact absurd hmle (by unfold entLE; omega)
    rw [hme, ← hl, List.erase_append_right (e :: l₂) hne, List.erase_cons_head]

/-- The push condition of the relaxation: the neighbor is fresh, or its
recorded cost exceeds the tentative cost. -/
def pushCond (st : AState) (nc : ℕ) (c : Cell) : Prop :=
  nc < (st.cost c).getD (nc + 1)

instance (st : AState) (nc : ℕ) (c : Cell) : Decidable (pushCond st nc c) := by
  unfold pushCond
  infer_instance

theorem pushEntry_frontier (goal cur n : Cell) (k : ℕ) (s : AState) :
    (pushEntry goal cur n k s).frontier =
      s.frontier ++ [(k + heuristic goal n, n)] := rfl

theorem relaxOne_cost_eq (g : OccGrid) (goal cur : Cell) (st : AState) (n : Cell)
    (ccur : ℕ) (hcur : st.cost cur = some ccur) (c : Cell) :
    (relaxOne g goal cur st n).cost c =
      if c = n ∧ pushCond st (ccur + 1) c then some (ccur + 1) else st.cost c := by
  unfold relaxOne
  rw [hcur]
  dsimp only
  rcases hn : st.cost n with _ | cn
  · dsimp only
    rw [pushEntry_cost]
    by_cases hc : c = n
    · subst hc
      rw [if_pos rfl,
        if_pos ⟨rfl, by unfold pushCond; rw [hn, Option.getD_none]; omega⟩]
    · rw [if_neg hc, if_neg fun hand => hc hand.1]
  · dsimp only
    by_cases hlt : ccur + 1 < cn
    · rw [if_pos hlt, pushEntry_cost]
      by_cases hc : c = n
      · subst hc
        rw [if_pos rfl,
          if_pos ⟨rfl, by unfold pushCond; rw [hn, Option.getD_some]; omega⟩]
      · rw [if_neg hc, if_neg fun hand => hc hand.1]
    · rw [if_neg hlt]
      by_cases hc : c = n
      · subst hc
        rw [if_neg fun hand => by
          have h2 := hand.2
          unfold pushCond at h2
          rw [hn, Option.getD_some] at h2
          omega]
      · rw [if_neg fun hand => hc hand.1]

theorem relaxOne_came_eq (g : OccGrid) (goal cur : Cell) (st : AState) (n : Cell)
    (ccur : ℕ) (hcur : st.cost cur = some ccur) (c : Cell) :
    (relaxOne g goal cur st n).came c =
      if c = n ∧ pushCond st (ccur + 1) c then some (some cur) else st.came c := by
  unfold relaxOne
  rw [hcur]
  dsimp only
  rcases hn : st.cost n with _ | cn
  · dsimp only
    rw [pushEntry_came]
    by_cases hc : c = n
    · subst hc
      rw [if_pos rfl,
        if_pos ⟨rfl, by unfold pushCond; rw [hn, Option.getD_none]; omega⟩]
    · rw [if_neg hc, if_neg fun hand => hc hand.1]
  · dsimp only
    by_cases hlt : ccur + 1 < cn
    · rw [if_pos hlt, pushEntry_came]
      by_cases hc : c = n
      · subst hc
        rw [if_pos rfl,
          if_pos ⟨rfl, by unfold pushCond; rw [hn, Option.getD_some]; omega⟩]
      · rw [if_neg hc, if_neg fun hand => hc hand.1]
    · rw [if_neg hlt]
      by_cases hc : c = n
      · subst hc
        rw [if_neg fun hand => by
          have h2 := hand.2
          unfold pushCond at h2
          rw [hn, Option.getD_some] at h2
          omega]
      · rw [if_neg fun hand => hc hand.1]

theorem relaxOne_frontier_eq (g : OccGrid) (goal cur : Cell) (st : AState) (n : Cell)
    (ccur : ℕ) (hcur : st.cost cur = some ccur) :
    (relaxOne g goal cur st n).frontier =
      st.frontier ++
        (if pushCond st (ccur + 1) n then [(ccur + 1 + heuristic goal n, n)] else []) := by
  unfold relaxOne
  rw [hcur]
  dsimp only
  rcases hn : st.cost n with _ | cn
  · dsimp only
    rw [pushEntry_frontier,
      if_pos (by unfold pushCond; rw [hn, Option.getD_none]; omega)]
  · dsimp only
    by_cases hlt : ccur + 1 < cn
    · rw [if_pos hlt, pushEntry_frontier,
        if_pos (by unfold pushCond; rw [hn, Option.getD_some]; omega)]
    · rw [if_neg hlt,
        if_neg (by unfold pushCond; rw [hn, Option.getD_some]; omega), List.append_nil]

theorem foldRelax_cost_eq (g : OccGrid) (goal cur : Cell) (ccur : ℕ) :
    ∀ (L : List Cell) (st : AState), L.Nodup → cur ∉ L → st.cost cur = some ccur →
      ∀ c, (L.foldl (relaxOne g goal cur) st).cost c =
        if c ∈ L ∧ pushCond st (ccur + 1) c then some (ccur + 1) else st.cost c := by
  intro L
  induction L with
  | nil =>
      intro st _ _ _ c
      rw [List.foldl_nil, if_neg fun hand => (List.not_mem_nil c) hand.1]
  | cons n L ih =>
      intro st hnd hcurmem hcur c
      rw [List.foldl_cons]
      have hnodL : L.Nodup := (List.nodup_cons.mp hnd).2
      have hnmem : n ∉ L := (List.nodup_cons.mp hnd).1
      have hcurn : cur ≠ n := fun h => hcurmem (h ▸ List.mem_cons_self n L)
      have hcurL : cur ∉ L := fun h => hcurmem (List.mem_cons_of_mem n h)
      have hst'cur : (relaxOne g goal cur st n).cost cur = some ccur := by
        rw [relaxOne_cost_eq g goal cur st n ccur hcur cur,
          if_neg fun hand => hcurn hand.1]
        exact hcur
      rw [ih (relaxOne g goal cur st n) hnodL hcurL hst'cur c]
      by_cases hcL : c ∈ L
      · have hcn : c ≠ n := fun h => hnmem (h ▸ hcL)
        have hcost_same : (relaxOne g goal cur st n).cost c = st.cost c := by
          rw [relaxOne_cost_eq g goal cur st n ccur hcur c,
            if_neg fun hand => hcn hand.1]
        have hpc : pushCond (relaxOne g goal cur st n) (ccur + 1) c ↔
            pushCond st (ccur + 1) c := by
          unfold pushCond
          rw [hcost_same]
        by_cases hp : pushCond st (ccur + 1) c
        · rw [if_pos ⟨hcL, hpc.mpr hp⟩, if_pos ⟨List.mem_cons_of_mem n hcL, hp⟩]
        · rw [if_neg fun hand => hp (hpc.mp hand.2),
            if_neg fun hand => hp hand.2, hcost_same]
      · by_cases hcn : c = n
        · subst hcn
          rw [if_neg fun hand => hcL hand.1,
            relaxOne_cost_eq g goal cur st c ccur hcur c]
          by_cases hp : pushCond st (ccur + 1) c
          · rw [if_pos ⟨rfl, hp⟩, if_pos ⟨List.mem_cons_self c L, hp⟩]
          · rw [if_neg fun hand => hp hand.2, if_neg fun hand => hp hand.2]
        · have hcost_same : (relaxOne g goal cur st n).cost c = st.cost c := by
            rw [relaxOne_cost_eq g goal cur st n ccur hcur c,
              if_neg fun hand => hcn hand.1]
          rw [if_neg fun hand => hcL hand.1, hcost_same,
            if_neg fun hand => by
              rcases List.mem_cons.mp hand.1 with h | h
              exacts [hcn h, hcL h]]

theorem foldRelax_came_eq (g : OccGrid) (goal cur : Cell) (ccur : ℕ) :
    ∀ (L : List Cell) (st : AState), L.Nodup → cur ∉ L → st.cost cur = some ccur →
      ∀ c, (L.foldl (relaxOne g goal cur) st).came c =
        if c ∈ L ∧ pushCond st (ccur + 1) c then some (some cur) else st.came c := by
  intro L
  induction L with
  | nil =>
      intro st _ _ _ c
      rw [List.foldl_nil, if_neg fun hand => (List.not_mem_nil c) hand.1]
  | cons n L ih =>
      intro st hnd hcurmem hcur c
      rw [List.foldl_cons]
      have hnodL : L.Nodup := (List.nodup_cons.mp hnd).2
      have hnmem : n ∉ L := (List.nodup_cons.mp hnd).1
      have hcurn : cur ≠ n := fun h => hcurmem (h ▸ List.mem_cons_self n L)
      have hcurL : cur ∉ L := fun h => hcurmem (List.mem_cons_of_mem n h)
      have hst'cur : (relaxOne g goal cur st n).cost cur = some ccur := by
        rw [relaxOne_cost_eq g goal cur st n ccur hcur cur,
          if_neg fun hand => hcurn hand.1]
        exact hcur
      rw [ih (relaxOne g goal cur st n) hnodL hcurL hst'cur c]
      by_cases hcL : c ∈ L
      · have hcn : c ≠ n := fun h => hnmem (h ▸ hcL)
        have hcost_same : (relaxOne g goal cur st n).cost c = st.cost c := by
          rw [relaxOne_cost_eq g goal cur st n ccur hcur c,
            if_neg fun hand => hcn hand.1]
        have hcame_same : (relaxOne g goal cur st n).came c = st.came c := by
          rw [relaxOne_came_eq g goal cur st n ccur hcur c,
            if_neg fun hand => hcn hand.1]
        have hpc : pushCond (relaxOne g goal cur st n) (ccur + 1) c ↔
            pushCond st (ccur + 1) c := by
          unfold pushCond
          rw [hcost_same]
        by_cases hp : pushCond st (ccur + 1) c
        · rw [if_pos ⟨hcL, hpc.mpr hp⟩, if_pos ⟨List.mem_cons_of_mem n hcL, hp⟩]
        · rw [if_neg fun hand => hp (hpc.mp hand.2),
            if_neg fun hand => hp hand.2, hcame_same]
      · by_cases hcn : c = n
        · subst hcn
          rw [if_neg fun hand => hcL hand.1,
            relaxOne_came_eq g goal cur st c ccur hcur c]
          by_cases hp : pushCond st (ccur + 1) c
          · rw [if_pos ⟨rfl, hp⟩, if_pos ⟨List.mem_cons_self c L, hp⟩]
          · rw [if_neg fun hand => hp hand.2, if_neg fun hand => hp hand.2]
        · have hcame_same : (relaxOne g goal cur st n).came c = st.came c := by
            rw [relaxOne_came_eq g goal cur st n ccur hcur c,
              if_neg fun hand => hcn hand.1]
          rw [if_neg fun hand => hcL hand.1, hcame_same,
            if_neg fun hand => by
              rcases List.mem_cons.mp hand.1 with h | h
              exacts [hcn h, hcL h]]

theorem foldRelax_frontier_eq (g : OccGrid) (goal cur : Cell) (ccur : ℕ) :
    ∀ (L : List Cell) (st : AState), L.Nodup → cur ∉ L → st.cost cur = some ccur →
      (L.foldl (relaxOne g goal cur) st).frontier =
        st.frontier ++
          (L.filter fun n => decide (pushCond st (ccur + 1) n)).map
            (fun n => (ccur + 1 + heuristic goal n, n)) := by
  intro L
  induction L with
  | nil =>
      intro st _ _ _
      rw [List.foldl_nil, List.filter_nil, List.map_nil, List.append_nil]
  | cons n L ih =>
      intro st hnd hcurmem hcur
      rw [List.foldl_cons]
      have hnodL : L.Nodup := (List.nodup_cons.mp hnd).2
      have hnmem : n ∉ L := (List.nodup_cons.mp hnd).1
      have hcurn : cur ≠ n := fun h => hcurmem (h ▸ List.mem_cons_self n L)
      have hcurL : cur ∉ L := fun h => hcurmem (List.mem_cons_of_mem n h)
      have hst'cur : (relaxOne g goal cur st n).cost cur = some ccur := by
        rw [relaxOne_cost_eq g goal cur st n ccur hcur cur,
          if_neg fun hand => hcurn hand.1]
        exact hcur
      rw [ih (relaxOne g goal cur st n) hnodL hcurL hst'cur]
      have hfilter : (L.filter fun m => decide (pushCond (relaxOne g goal cur st n) (ccur + 1) m)) =
          (L.filter fun m => decide (pushCond st (ccur + 1) m)) := by
        apply List.filter_congr
        intro m hm
        have hmn : m ≠ n := fun h => hnmem (h ▸ hm)
        have hcost_same : (relaxOne g goal cur st n).cost m = st.cost m := by
          rw [relaxOne_cost_eq g goal cur st n ccur hcur m,
            if_neg fun hand => hmn hand.1]
        rw [decide_eq_decide]
        unfold pushCond
        rw [hcost_same]
      rw [hfilter, relaxOne_frontier_eq g goal cur st n ccur hcur, List.filter_cons]
      by_cases hp : pushCond st (ccur + 1) n
      · simp [hp]
      · simp [hp]

/-- The invariant after `k` expansions of the loop on an empty grid: the
first `k+1` cascade cells are recorded with their true costs, the recorded
domain is the start plus the in-bounds neighbors of the expanded prefix,
every recorded cost is at most `k`, the frontier holds the entry for
`cascade k` strictly below every other entry, and the parent links walk the
cascade back to the start. -/
structure CasInv (g : OccGrid) (s t : Cell) (k : ℕ) (st : AState) : Prop where
  hkC : k ≤ chebyshev s t
  hcost : ∀ j, j ≤ k → st.cost (cascade s t j) = some j
  hdom : ∀ c, (st.cost c).isSome = true ↔
    (c = s ∨ ∃ j, j < k ∧ inBounds g c ∧ chebyshev (cascade s t j) c = 1)
  hle : ∀ c v, st.cost c = some v → v ≤ k
  hfr : ∃ l₁ l₂, st.frontier = l₁ ++ (fvalEntry s t k, cascade s t k) :: l₂ ∧
    ∀ e ∈ l₁ ++ l₂, ftrue s t k < e.1
  hcame : ∀ j, 1 ≤ j → j ≤ k →
    st.came (cascade s t j) = some (some (cascade s t (j - 1)))
  hcameS : st.came s = some none

theorem casInv_init (g : OccGrid) (s t : Cell) :
    CasInv g s t 0
      { frontier := [(0, s)],
        came := fun c => if c = s then some none else none,
        cost := fun c => if c = s then some 0 else none } := by
  refine ⟨Nat.zero_le _, ?_, ?_, ?_, ?_, ?_, ?_⟩
  · intro j hj
    have hj0 : j = 0 := by omega
    subst hj0
    dsimp only
    rw [if_pos (show cascade s t 0 = s from rfl)]
  · intro c
    dsimp only
    constructor
    · intro h
      by_cases hc : c = s
      · exact Or.inl hc
      · rw [if_neg hc] at h
        exact absurd h (by simp)
    · intro h
      rcases h with rfl | ⟨j, hj, _⟩
      · rw [if_pos rfl]
        rfl
      · omega
  · intro c v hv
    dsimp only at hv
    by_cases hc : c = s
    · rw [if_pos hc, Option.some.injEq] at hv
      omega
    · rw [if_neg hc] at hv
      exact absurd hv (by simp)
  · refine ⟨[], [], ?_, ?_⟩
    · rw [List.nil_append]
      rfl
    · intro e he
      exact absurd he (List.not_mem_nil e)
  · intro j h1 h2
    omega
  · dsimp only
    rw [if_pos rfl]

theorem casInv_step (g : OccGrid) (s t : Cell)
    (hempty : ∀ r c, g.blocked r c = false) (hs : inBounds g s) (ht : inBounds g t)
    (k : ℕ) (st : AState) (hinv : CasInv g s t k st) (hk : k < chebyshev s t)
    (l₁ l₂ : List (ℕ × Cell))
    (hbound : ∀ e ∈ l₁ ++ l₂, ftrue s t k < e.1) :
    CasInv g s t (k + 1)
      (relaxAll g t (cascade s t k) { st with frontier := l₁ ++ l₂ }) := by
  obtain ⟨hkC, hcost, hdom, hle, _, hcame, hcameS⟩ := hinv
  set cur := cascade s t k with hcur_def
  set st' : AState := { st with frontier := l₁ ++ l₂ } with hst'
  have hc_eq : ∀ c, st'.cost c = st.cost c := fun _ => rfl
  have hm_eq : ∀ c, st'.came c = st.came c := fun _ => rfl
  have hf_eq : st'.frontier = l₁ ++ l₂ := rfl
  have hRA : relaxAll g t cur st' =
      (getNeighbors g cur).foldl (relaxOne g t cur) st' := rfl
  have hN : ∀ n, n ∈ getNeighbors g cur ↔ (chebyshev cur n = 1 ∧ inBounds g n) :=
    fun n => adjacent_mem_getNeighbors g hempty cur n
  have hnodup : (getNeighbors g cur).Nodup := getNeighbors_nodup g cur
  have hcurnot : cur ∉ getNeighbors g cur := self_not_mem_getNeighbors g cur
  have hcur : st'.cost cur = some k := hcost k le_rfl
  have hCost := foldRelax_cost_eq g t cur k (getNeighbors g cur) st' hnodup hcurnot hcur
  have hCame := foldRelax_came_eq g t cur k (getNeighbors g cur) st' hnodup hcurnot hcur
  have hFr := foldRelax_frontier_eq g t cur k (getNeighbors g cur) st' hnodup hcurnot hcur
  have hpc_rec : ∀ c v, st.cost c = some v → ¬ pushCond st' (k + 1) c := by
    intro c v hv hp
    unfold pushCond at hp
    rw [hc_eq, hv, Option.getD_some] at hp
    exact absurd (hle c v hv) (by omega)
  have hpc_fresh : ∀ c, st.cost c = none → pushCond st' (k + 1) c := by
    intro c hv
    unfold pushCond
    rw [hc_eq, hv, Option.getD_none]
    omega
  have hmem_succ : cascade s t (k + 1) ∈ getNeighbors g cur := by
    rw [hN]
    refine ⟨?_, cascade_inBounds g s t hs ht (k + 1)⟩
    have hch := chebyshev_cascade s t k (k + 1) (by omega) (by omega)
    rw [hcur_def]
    omega
  have hfresh_succ : st.cost (cascade s t (k + 1)) = none := by
    rcases hcv : st.cost (cascade s t (k + 1)) with _ | v
    · rfl
    · have hsome : (st.cost (cascade s t (k + 1))).isSome = true := by
        rw [hcv]
        rfl
      rw [hdom] at hsome
      rcases hsome with heq | ⟨j, hj, _, hadj⟩
      · have h0 := chebyshev_cascade s t 0 (k + 1) (by omega) (by omega)
        rw [heq, show cascade s t 0 = s from rfl, chebyshev_self] at h0
        omega
      · have hja := chebyshev_cascade s t j (k + 1) (by omega) (by omega)
        omega
  refine ⟨by omega, ?_, ?_, ?_, ?_, ?_, ?_⟩
  · -- recorded cascade costs
    intro j hj
    rw [hRA, hCost (cascade s t j)]
    by_cases hjk : j ≤ k
    · rw [if_neg fun hand => hpc_rec _ j (hcost j hjk) hand.2, hc_eq]
      exact hcost j hjk
    · have hj1 : j = k + 1 := by omega
      subst hj1
      rw [if_pos ⟨hmem_succ, hpc_fresh _ hfresh_succ⟩]
  · -- recorded domain
    intro c
    rw [hRA, hCost c]
    by_cases hin : c ∈ getNeighbors g cur ∧ pushCond st' (k + 1) c
    · rw [if_pos hin]
      simp only [Option.isSome_some, true_iff]
      obtain ⟨hmem, _⟩ := hin
      rw [hN] at hmem
      exact Or.inr ⟨k, by omega, hmem.2, hmem.1⟩
    · rw [if_neg hin, hc_eq, hdom c]
      constructor
      · rintro (rfl | ⟨j, hj, hb, hadj⟩)
        · exact Or.inl rfl
        · exact Or.inr ⟨j, by omega, hb, hadj⟩
      · rintro (rfl | ⟨j, hj, hb, hadj⟩)
        · exact Or.inl rfl
        · by_cases hjk : j < k
          · exact Or.inr ⟨j, hjk, hb, hadj⟩
          · have hj1 : j = k := by omega
            rw [hj1] at hadj
            have hmem : c ∈ getNeighbors g cur := by
              rw [hN]
              exact ⟨hadj, hb⟩
            have hnp : ¬ pushCond st' (k + 1) c := fun hp => hin ⟨hmem, hp⟩
            rcases hcv : st.cost c with _ | v
            · exact absurd (hpc_fresh c hcv) hnp
            · have hsome : (st.cost c).isSome = true := by
                rw [hcv]
                rfl
              rw [hdom c] at hsome
              rcases hsome with rfl | ⟨j', hj', hb', hadj'⟩
              · exact Or.inl rfl
              · exact Or.inr ⟨j', by omega, hb', hadj'⟩
  · -- cost upper bound
    intro c v
    rw [hRA, hCost c]
    by_cases hin : c ∈ getNeighbors g cur ∧ pushCond st' (k + 1) c
    · rw [if_pos hin]
      intro hv
      rw [Option.some.injEq] at hv
      omega
    · rw [if_neg hin, hc_eq]
      intro hv
      exact le_trans (hle c v hv) (by omega)
  · -- the frontier split
    have hFR : (relaxAll g t cur st').frontier =
        (l₁ ++ l₂) ++
          ((getNeighbors g cur).filter fun n => decide (pushCond st' (k + 1) n)).map
            (fun n => (k + 1 + heuristic t n, n)) := by
      rw [hRA, hFr, hf_eq]
    set F := (getNeighbors g cur).filter fun n => decide (pushCond st' (k + 1) n) with hF
    have hmemF : cascade s t (k + 1) ∈ F := by
      rw [hF, List.mem_filter]
      exact ⟨hmem_succ, by rw [decide_eq_true_eq]; exact hpc_fresh _ hfresh_succ⟩
    have hFnodup : F.Nodup := List.Nodup.filter _ hnodup
    obtain ⟨F₁, F₂, hFsplit⟩ := List.append_of_mem hmemF
    have hnotF : cascade s t (k + 1) ∉ F₁ ∧ cascade s t (k + 1) ∉ F₂ := by
      rw [hFsplit, List.nodup_append] at hFnodup
      obtain ⟨h1, h2, hdisj⟩ := hFnodup
      exact ⟨fun hmem1 => hdisj hmem1 (List.mem_cons_self _ _),
        (List.nodup_cons.mp h2).1⟩
    have hstrict : ∀ n ∈ F, n ≠ cascade s t (k + 1) →
        ftrue s t (k + 1) < k + 1 + heuristic t n := by
      intro n hn hne
      rw [hF, List.mem_filter] at hn
      have hmemN := hn.1
      rw [hN] at hmemN
      have hct : cur ≠ t := cascade_ne_top s t k hk
      have histep : istep t cur = cascade s t (k + 1) := (cascade_succ s t k).symm
      have hlt := istep_strict_min cur t n hct hmemN.1 (by
        rw [histep]
        exact hne)
      rw [histep] at hlt
      unfold ftrue
      omega
    refine ⟨(l₁ ++ l₂) ++ F₁.map (fun n => (k + 1 + heuristic t n, n)),
      F₂.map (fun n => (k + 1 + heuristic t n, n)), ?_, ?_⟩
    · rw [hFR, hFsplit, List.map_append, List.map_cons, fvalEntry_succ]
      simp only [List.append_assoc]
    · intro e he
      rw [List.mem_append] at he
      rcases he with he | he
      · rw [List.mem_append] at he
        rcases he with he | he
        · exact lt_of_le_of_lt (ftrue_succ_le s t k hk) (hbound e he)
        · rw [List.mem_map] at he
          obtain ⟨n, hn, rfl⟩ := he
          have hnF : n ∈ F := by
            rw [hFsplit]
            exact List.mem_append_left _ hn
          exact hstrict n hnF (fun h => hnotF.1 (h ▸ hn))
      · rw [List.mem_map] at he
        obtain ⟨n, hn, rfl⟩ := he
        have hnF : n ∈ F := by
          rw [hFsplit]
          exact List.mem_append_right _ (List.mem_cons_of_mem _ hn)
        exact hstrict n hnF (fun h => hnotF.2 (h ▸ hn))
  · -- parent links
    intro j h1 h2
    rw [hRA, hCame (cascade s t j)]
    by_cases hjk : j ≤ k
    · rw [if_neg fun hand => hpc_rec _ j (hcost j hjk) hand.2, hm_eq]
      exact hcame j h1 hjk
    · have hj1 : j = k + 1 := by omega
      subst hj1
      rw [if_pos ⟨hmem_succ, hpc_fresh _ hfresh_succ⟩]
      rfl
  · -- parent of the start
    have hzero : st.cost s = some 0 := hcost 0 (Nat.zero_le k)
    rw [hRA, hCame s, if_neg fun hand => hpc_rec s 0 hzero hand.2, hm_eq]
    exact hcameS

theorem cascadeLoop (g : OccGrid) (s t : Cell)
    (hempty : ∀ r c, g.blocked r c = false) (hs : inBounds g s) (ht : inBounds g t) :
    ∀ (d k : ℕ), k + d = chebyshev s t → ∀ st, CasInv g s t k st →
      ∃ fin : AState, astarLoop g t st = (fin.came, fin.cost) ∧
        CasInv g s t (chebyshev s t) fin := by
  intro d
  induction d with
  | zero =>
      intro k hkd st hinv
      obtain ⟨l₁, l₂, hsplit, hbound⟩ := hinv.hfr
      have hkC : k = chebyshev s t := by omega
      have hpop : popMin st.frontier =
          some ((fvalEntry s t k, cascade s t k), l₁ ++ l₂) := by
        rw [hsplit]
        exact popMin_strict l₁ l₂ _
          (fun f hf => lt_of_le_of_lt (fvalEntry_le_ftrue s t k) (hbound f hf))
      refine ⟨st, ?_, hkC ▸ hinv⟩
      rw [astarLoop, hpop]
      dsimp only
      rw [if_pos (cascade_top s t k (by omega))]
  | succ d ih =>
      intro k hkd st hinv
      have hk : k < chebyshev s t := by omega
      obtain ⟨l₁, l₂, hsplit, hbound⟩ := hinv.hfr
      have hpop : popMin st.frontier =
          some ((fvalEntry s t k, cascade s t k), l₁ ++ l₂) := by
        rw [hsplit]
        exact popMin_strict l₁ l₂ _
          (fun f hf => lt_of_le_of_lt (fvalEntry_le_ftrue s t k) (hbound f hf))
      have hstep := casInv_step g s t hempty hs ht k st hinv hk l₁ l₂ hbound
      obtain ⟨fin, hfin, hfininv⟩ := ih (k + 1) (by omega) _ hstep
      refine ⟨fin, ?_, hfininv⟩
      rw [astarLoop, hpop]
      dsimp only
      rw [if_neg (cascade_ne_top s t k hk)]
      exact hfin

theorem walkPath_cascade (s t : Cell) (came : Cell → Option (Option Cell))
    (hcame : ∀ j, 1 ≤ j → j ≤ chebyshev s t →
      came (cascade s t j) = some (some (cascade s t (j - 1))))
    (hcameS : came s = some none) :
    ∀ j, j ≤ chebyshev s t →
      walkPath came (j + 1) (cascade s t j) =
        ((List.range (j + 1)).map fun i => gridToWorld (cascade s t i)).reverse := by
  intro j
  induction j with
  | zero =>
      intro _
      rw [walkPath, show cascade s t 0 = s from rfl, hcameS]
      dsimp only
      rw [show List.range 1 = [0] from rfl]
      simp only [List.map_cons, List.map_nil, List.reverse_singleton]
      rfl
  | succ j ihj =>
      intro hj
      rw [walkPath, hcame (j + 1) (by omega) hj]
      dsimp only
      rw [Nat.add_sub_cancel, ihj (by omega)]
      conv_rhs => rw [List.range_succ, List.map_append, List.reverse_append]
      simp

/-- Claim C1: on an occupancy grid with no blocked cells, for any start and
goal world coordinates whose cells are in bounds, `a_star` returns a
non-empty waypoint sequence whose number of steps (waypoints minus one)
equals the Chebyshev distance between the start cell and the goal cell; the
route is exactly the cell-center track of the diagonal-then-straight
geodesic, and each step moves to one of the 8 neighboring cells (Chebyshev
distance 1, uniform cost 1 per step). -/
theorem c1_empty_grid_astar (g : OccGrid) (start goal : ℚ × ℚ)
    (hempty : ∀ r c, g.blocked r c = false)
    (hs : inBounds g (worldToGrid start.1 start.2))
    (hg : inBounds g (worldToGrid goal.1 goal.2)) :
    a_star start goal g ≠ [] ∧
    (a_star start goal g).length =
      chebyshev (worldToGrid start.1 start.2) (worldToGrid goal.1 goal.2) + 1 ∧
    a_star start goal g =
      (List.range
          (chebyshev (worldToGrid start.1 start.2) (worldToGrid goal.1 goal.2) + 1)).map
        (fun i => gridToWorld
          (cascade (worldToGrid start.1 start.2) (worldToGrid goal.1 goal.2) i)) ∧
    ∀ i < chebyshev (worldToGrid start.1 start.2) (worldToGrid goal.1 goal.2),
      chebyshev
        (cascade (worldToGrid start.1 start.2) (worldToGrid goal.1 goal.2) i)
        (cascade (worldToGrid start.1 start.2) (worldToGrid goal.1 goal.2) (i + 1)) = 1 := by
  set sg := worldToGrid start.1 start.2 with hsgdef
  set gg := worldToGrid goal.1 goal.2 with hggdef
  set C := chebyshev sg gg with hCdef
  obtain ⟨fin, hfin, hinv⟩ := cascadeLoop g sg gg hempty hs hg C 0 (by omega)
    _ (casInv_init g sg gg)
  obtain ⟨_, hcost, _, _, _, hcame, hcameS⟩ := hinv
  have hggc : cascade sg gg C = gg := cascade_top sg gg C le_rfl
  have hcostgg : fin.cost gg = some C := by
    have h := hcost C le_rfl
    rw [hggc] at h
    exact h
  have hcamegg : ∃ w, fin.came gg = some w := by
    by_cases hC0 : C = 0
    · have hsggg : sg = gg := chebyshev_eq_zero sg gg (by omega)
      refine ⟨none, ?_⟩
      rw [← hsggg]
      exact hcameS
    · refine ⟨some (cascade sg gg (C - 1)), ?_⟩
      have h := hcame C (by omega) le_rfl
      rw [hggc] at h
      exact h
  have hwalk : walkPath fin.came (C + 1) gg =
      ((List.range (C + 1)).map fun i => gridToWorld (cascade sg gg i)).reverse := by
    have h := walkPath_cascade sg gg fin.came hcame hcameS C le_rfl
    rw [hggc] at h
    exact h
  have hval : a_star start goal g =
      (List.range (C + 1)).map fun i => gridToWorld (cascade sg gg i) := by
    unfold a_star
    dsimp only
    rw [← hsgdef, ← hggdef, hfin]
    dsimp only
    obtain ⟨w, hw⟩ := hcamegg
    rw [hw]
    dsimp only
    rw [hcostgg]
    dsimp only [Option.getD_some]
    rw [hwalk, List.reverse_reverse]
  refine ⟨?_, ?_, hval, ?_⟩
  · intro hnil
    rw [hval] at hnil
    have hlen := congrArg List.length hnil
    rw [List.length_map, List.length_range, List.length_nil] at hlen
    omega
  · rw [hval, List.length_map, List.length_range]
  · intro i hi
    have h := chebyshev_cascade sg gg i (i + 1) (by omega) (by omega)
    omega

theorem pyInt_three_halves : pyInt (3/2 : ℚ) = 1 := by
  rw [pyInt, if_pos (by norm_num : (0:ℚ) ≤ 3/2)]
  rw [Int.floor_eq_iff]
  norm_num

theorem pyInt_five_halves : pyInt (5/2 : ℚ) = 2 := by
  rw [pyInt, if_pos (by norm_num : (0:ℚ) ≤ 5/2)]
  rw [Int.floor_eq_iff]
  norm_num

/-- Witness for C1: on a 3×3 unblocked grid, routing from world (0.25, 0.25)
(cell (0,0)) to world (1.25, 0.75) (cell (1,2), Chebyshev distance 2) returns
a non-empty route of 3 waypoints. -/
theorem c1_empty_grid_astar_witness :
    (∀ r c, ({ rows := 3, cols := 3, blocked := fun _ _ => false } : OccGrid).blocked r c
      = false) ∧
    inBounds { rows := 3, cols := 3, blocked := fun _ _ => false }
      (worldToGrid (1/4 : ℚ) (1/4)) ∧
    inBounds { rows := 3, cols := 3, blocked := fun _ _ => false }
      (worldToGrid (5/4 : ℚ) (3/4)) ∧
    a_star ((1:ℚ)/4, (1:ℚ)/4) ((5:ℚ)/4, (3:ℚ)/4)
      { rows := 3, cols := 3, blocked := fun _ _ => false } ≠ [] ∧
    (a_star ((1:ℚ)/4, (1:ℚ)/4) ((5:ℚ)/4, (3:ℚ)/4)
        { rows := 3, cols := 3, blocked := fun _ _ => false }).length =
      chebyshev (worldToGrid (1/4 : ℚ) (1/4)) (worldToGrid (5/4 : ℚ) (3/4)) + 1 := by
  have hsg : worldToGrid (1/4 : ℚ) (1/4) = ((0:ℤ), (0:ℤ)) := by
    have harg : ((1:ℚ)/4) / 0.5 = 1/2 := by norm_num
    rw [worldToGrid, harg, pyInt_half]
  have hgg : worldToGrid (5/4 : ℚ) (3/4) = ((1:ℤ), (2:ℤ)) := by
    have h1 : ((3:ℚ)/4) / 0.5 = 3/2 := by norm_num
    have h2 : ((5:ℚ)/4) / 0.5 = 5/2 := by norm_num
    rw [worldToGrid, h1, h2, pyInt_three_halves, pyInt_five_halves]
  have hbs : inBounds { rows := 3, cols := 3, blocked := fun _ _ => false }
      (worldToGrid (1/4 : ℚ) (1/4)) := by
    rw [hsg]
    decide
  have hbg : inBounds { rows := 3, cols := 3, blocked := fun _ _ => false }
      (worldToGrid (5/4 : ℚ) (3/4)) := by
    rw [hgg]
    decide
  have hmain := c1_empty_grid_astar { rows := 3, cols := 3, blocked := fun _ _ => false }
    ((1:ℚ)/4, (1:ℚ)/4) ((5:ℚ)/4, (3:ℚ)/4) (fun _ _ => rfl) hbs hbg
  exact ⟨fun _ _ => rfl, hbs, hbg, hmain.1, hmain.2.1⟩
